import Mathlib

/-
Verification of the expandybird template-expansion engine
(expansion.py, references.py, schema_validation_utils.py, sandbox_loader.py).

Documents are modelled as a YAML-like value type; Python dicts are
association lists in insertion order; Python strings are Lean strings,
with character-level work done on lists of characters.  Fallible code
returns Except.  External libraries (the jsonpath package, the jsonschema
validator machinery, the Jinja/Python renderers and the YAML parser)
enter as oracles or, where a claim depends on them, as small models
whose doc comments say so.
-/

namespace Expansion

/-- A YAML/JSON-like document value: null, booleans, integers, strings,
sequences and mappings (mappings keep insertion order, as Python dicts do). -/
inductive Value where
  | null : Value
  | bool : Bool → Value
  | int : Int → Value
  | str : String → Value
  | arr : List Value → Value
  | dict : List (String × Value) → Value

/-- Lookup of a key in a Python-dict model (first binding wins; association
lists built by insertKey have unique keys so this is the binding). -/
def lookupKey (d : List (String × Value)) (k : String) : Option Value :=
  match d with
  | [] => none
  | (k', v) :: rest => if k' = k then some v else lookupKey rest k

/-- Python `k in d` for a dict. -/
def hasKey (d : List (String × Value)) (k : String) : Bool :=
  (lookupKey d k).isSome

/-- Python `d[k] = v`: update in place when the key exists, else append,
preserving insertion order. -/
def insertKey (d : List (String × Value)) (k : String) (v : Value) :
    List (String × Value) :=
  match d with
  | [] => [(k, v)]
  | (k', v') :: rest =>
      if k' = k then (k', v) :: rest else (k', v') :: insertKey rest k v

/-- Python `d.setdefault(k, v)`: insert only when the key is absent. -/
def setdefaultKey (d : List (String × Value)) (k : String) (v : Value) :
    List (String × Value) :=
  if hasKey d k then d else d ++ [(k, v)]

/-- Python truthiness of a document value (None, False, 0, "", [] and
empty dicts are falsy). -/
def truthy : Value → Bool
  | .null => false
  | .bool b => b
  | .int n => n ≠ 0
  | .str s => s ≠ ""
  | .arr l => !l.isEmpty
  | .dict d => !d.isEmpty

/-- Errors raised during expansion: the exception types of the source, with
the data each carries that the claims talk about.  malformedRef and
noValueFound are the two ExpansionReferenceError shapes; typeError,
keyError and attrError are the builtin Python exceptions the code can hit;
expansionError carries the message argument given to ExpansionError (the
exception also appends a repr of the offending resource, which is not
modelled); validationError likewise for ValidationErrors. -/
inductive Err where
  | malformedRef (content : String)
  | noValueFound (reference : String)
  | typeError (msg : String)
  | keyError (k : String)
  | attrError (msg : String)
  | refResolution (ref : String)
  | expansionError (message : String)
  | validationError (message : String)
  | fuel
deriving DecidableEq

/-! ### The reference matcher (references.py, class ReferenceMatcher) -/

/-- The literal characters of the reference marker, the text that
REF_PREFIX_PATTERN looks for. -/
def refMarker : List Char := ['$', '(', 'r', 'e', 'f', '.']

/-- Does `pat` occur at the head of `s`? -/
def startsWith : List Char → List Char → Bool
  | [], _ => true
  | _ :: _, [] => false
  | p :: ps, c :: cs => p = c && startsWith ps cs

/-- Index of the first occurrence of the reference marker in `s`
(REF_PREFIX_PATTERN.search). -/
def findMarker : List Char → Option Nat
  | [] => none
  | c :: cs =>
      if startsWith refMarker (c :: cs) then some 0
      else (findMarker cs).map (· + 1)

/-- Is there a close paren before the first newline?  This is whether
the regex tail `(.*)\)` of REF_PATTERN can match here: Python `.` does
not match a newline. -/
def tailCloseOk : List Char → Bool
  | [] => false
  | c :: cs => if c = ')' then true else if c = '\n' then false else tailCloseOk cs

/-- The lazy group `(.*?)` of REF_PATTERN: the index (relative to the
characters after a marker) of the first dot that is reachable without
crossing a newline and whose tail can complete the pattern. -/
def lazyDotIdx : List Char → Option Nat
  | [] => none
  | c :: cs =>
      if c = '\n' then none
      else if c = '.' && tailCloseOk cs then some 0
      else (lazyDotIdx cs).map (· + 1)

/-- REF_PATTERN.search: the leftmost start of the marker from which the
whole pattern can match; returns that start index together with the
absolute index of the dot that ends the name group (match.end(1)). -/
def searchMatch : List Char → Option (Nat × Nat)
  | [] => none
  | c :: cs =>
      if startsWith refMarker (c :: cs) then
        match lazyDotIdx (List.drop 6 (c :: cs)) with
        | some j => some (0, 6 + j)
        | none => (searchMatch cs).map (fun p => (p.1 + 1, p.2 + 1))
      else (searchMatch cs).map (fun p => (p.1 + 1, p.2 + 1))

/-- The paren-counting loop of FindReference: starting from a given depth,
the relative index of the character at which the depth returns to zero. -/
def parenScan : List Char → Nat → Option Nat
  | [], _ => none
  | c :: cs, d =>
      let d' := if c = '(' then d + 1 else if c = ')' then d - 1 else d
      if d' = 0 then some 0 else (parenScan cs d').map (· + 1)

/-- FindReference (references.py).  On the remaining content it either
reports that no reference is present (ok none), finds the next reference
and returns its name, its path and the remaining content starting at the
closing paren (ok some), or raises a malformed-reference error. -/
def FindReference (content : List Char) :
    Except Err (Option (List Char × List Char × List Char)) :=
  match findMarker content with
  | none => .ok none
  | some _ =>
      match searchMatch content with
      | none => .error (.malformedRef (String.mk content))
      | some (i, j) =>
          match parenScan (content.drop j) 1 with
          | none => .error (.malformedRef (String.mk content))
          | some off =>
              let k := j + off
              .ok (some ((content.drop (i + 6)).take (j - (i + 6)),
                         (content.drop (j + 1)).take (k - (j + 1)),
                         content.drop k))

/-- BuildReference (references.py): rebuilds the literal reference token
from a name and a path. -/
def BuildReference (name path : List Char) : List Char :=
  refMarker ++ name ++ '.' :: (path ++ [')'])

/-- Python str.replace, fuel-structured (every step consumes at least one
character of `s`, so any fuel beyond the length of `s` is enough and the
wrapper below supplies it): replace every non-overlapping, left-to-right
occurrence of `pat` in `s` by `r`. -/
def replaceAllF : Nat → List Char → List Char → List Char → List Char
  | 0, s, _, _ => s
  | f + 1, s, pat, r =>
      match s with
      | [] => []
      | c :: cs =>
          if !pat.isEmpty && startsWith pat (c :: cs) then
            r ++ replaceAllF f (List.drop (pat.length - 1) cs) pat r
          else
            c :: replaceAllF f cs pat r

/-- Python str.replace: replace every (non-overlapping, left-to-right)
occurrence of `pat` in `s` by `r`.  The source never calls it with an
empty pattern; on an empty pattern this model returns `s` unchanged. -/
def replaceAll (s pat r : List Char) : List Char :=
  replaceAllF (s.length + 1) s pat r

/-- Split a path at every dot. -/
def splitOnDotGo : List Char → List Char → List String
  | [], acc => [String.mk acc.reverse]
  | c :: cs, acc =>
      if c = '.' then String.mk acc.reverse :: splitOnDotGo cs []
      else splitOnDotGo cs (c :: acc)

/-- Split a path at every dot. -/
def splitOnDot (p : List Char) : List String := splitOnDotGo p []

/-- Walk a chain of mapping keys. -/
def walkKeys : Value → List String → Option Value
  | v, [] => some v
  | .dict d, k :: ks =>
      match lookupKey d k with
      | some v => walkKeys v ks
      | none => none
  | _, _ :: _ => none

/-- Modelled from the spec: the external jsonpath library (the `jsonpath`
package imported by references.py is not part of this repository).  Spec
section 4.1 gives its contract: a path is evaluated against the object
and the matches come back as a list, a single dotted-key match as a
singleton list, no match as False (here: none).  This model covers
dotted keys walking nested mappings, the only shape the claims use;
bracket indices, wildcards and filters are not modelled. -/
def jsonpathEval (obj : Value) (path : List Char) : Option (List Value) :=
  (walkKeys obj (splitOnDot path)).map (fun v => [v])

/-- ExtractWithJsonPath (references.py): evaluate the path on the
referenced object; no match raises a no-value-found reference error
(or yields none when raise_exception is off); a singleton match list is
unwrapped; a longer list is returned as a list. -/
def ExtractWithJsonPath (refObj : Value) (name path : List Char)
    (raiseExc : Bool) : Except Err (Option Value) :=
  match jsonpathEval refObj path with
  | none =>
      if raiseExc then
        .error (.noValueFound (String.mk (BuildReference name path)))
      else .ok none
  | some [v] => .ok (some v)
  | some l => .ok (some (.arr l))

/-- The string case of _TraverseNode (references.py) in substitution mode
(an output map was supplied), fuel-structured: the while loop over
FindReference advances past at least one character per iteration, so any
fuel beyond the length of the content is enough and the wrapper supplies
it.  `node` is the string being rewritten, `content` the matcher
position.  A found reference whose name is not in the output map is
skipped; otherwise the path is extracted with raise_exception=True, a
None (null) value performs no replacement, a string value replaces every
occurrence of the literal token, and any other value raises the
TypeError that Python str.replace raises on a non-string argument. -/
def TraverseStringF (om : List (String × Value)) :
    Nat → List Char → List Char → Except Err (List Char)
  | 0, _, _ => .error .fuel
  | f + 1, node, content =>
      match FindReference content with
      | .error e => .error e
      | .ok none => .ok node
      | .ok (some (n, p, rest)) =>
          match lookupKey om (String.mk n) with
          | none => TraverseStringF om f node rest
          | some refObj =>
              match ExtractWithJsonPath refObj n p true with
              | .error e => .error e
              | .ok none => TraverseStringF om f node rest
              | .ok (some .null) => TraverseStringF om f node rest
              | .ok (some (.str u)) =>
                  TraverseStringF om f (replaceAll node (BuildReference n p) u.data) rest
              | .ok (some _) => .error (.typeError "expected a character buffer object")

/-- The string case of _TraverseNode (references.py) in substitution mode:
the while loop, with enough fuel for its content. -/
def TraverseString (node content : List Char) (om : List (String × Value)) :
    Except Err (List Char) :=
  TraverseStringF om (content.length + 1) node content

/-- The string case of _TraverseNode (references.py) in collector mode
(list_references was supplied), fuel-structured as TraverseStringF is:
every reference found is appended, in order, as a (name, path) pair. -/
def CollectRefsF : Nat → List Char → List (String × String) →
    Except Err (List (String × String))
  | 0, _, _ => .error .fuel
  | f + 1, content, acc =>
      match FindReference content with
      | .error e => .error e
      | .ok none => .ok acc
      | .ok (some (n, p, rest)) =>
          CollectRefsF f rest (acc ++ [(String.mk n, String.mk p)])

/-- The string case of _TraverseNode (references.py) in collector mode,
with enough fuel for its content. -/
def CollectRefs (content : List Char) (acc : List (String × String)) :
    Except Err (List (String × String)) :=
  CollectRefsF (content.length + 1) content acc

mutual

/-- _TraverseNode (references.py) in substitution mode: recursively
descend mappings and sequences, rewriting every string with
TraverseString. -/
def TraverseNode (v : Value) (om : List (String × Value)) : Except Err Value :=
  match v with
  | .dict d => (TraverseNodeDict d om).map Value.dict
  | .arr l => (TraverseNodeArr l om).map Value.arr
  | .str s => (TraverseString s.data s.data om).map (fun r => .str (String.mk r))
  | v' => .ok v'

/-- Mapping case of _TraverseNode: each value is rebound to its traversal. -/
def TraverseNodeDict (d : List (String × Value)) (om : List (String × Value)) :
    Except Err (List (String × Value)) :=
  match d with
  | [] => .ok []
  | (k, v) :: rest => do
      let v' ← TraverseNode v om
      let rest' ← TraverseNodeDict rest om
      pure ((k, v') :: rest')

/-- Sequence case of _TraverseNode: element-wise traversal. -/
def TraverseNodeArr (l : List Value) (om : List (String × Value)) :
    Except Err (List Value) :=
  match l with
  | [] => .ok []
  | v :: rest => do
      let v' ← TraverseNode v om
      let rest' ← TraverseNodeArr rest om
      pure (v' :: rest')

end

mutual

/-- _TraverseNode in collector mode: recursively descend and collect the
(name, path) of every reference, in document order. -/
def CollectNode (v : Value) (acc : List (String × String)) :
    Except Err (List (String × String)) :=
  match v with
  | .dict d => CollectNodeDict d acc
  | .arr l => CollectNodeArr l acc
  | .str s => CollectRefs s.data acc
  | _ => .ok acc

/-- Mapping case of collector-mode _TraverseNode. -/
def CollectNodeDict (d : List (String × Value)) (acc : List (String × String)) :
    Except Err (List (String × String)) :=
  match d with
  | [] => .ok acc
  | (_, v) :: rest => do CollectNodeDict rest (← CollectNode v acc)

/-- Sequence case of collector-mode _TraverseNode. -/
def CollectNodeArr (l : List Value) (acc : List (String × String)) :
    Except Err (List (String × String)) :=
  match l with
  | [] => .ok acc
  | v :: rest => do CollectNodeArr rest (← CollectNode v acc)

end

/-- PopulateReferences (references.py). -/
def PopulateReferences (node : Value) (om : List (String × Value)) :
    Except Err Value :=
  TraverseNode node om

/-! ### Default injection (schema_validation_utils.py) -/

/-- ResolveReferencedDefault (schema_validation_utils.py).  The jsonschema
resolver is modelled as a map from ref targets to the resolved schema
documents; a target the resolver cannot resolve raises, a resolved
mapping yields its default field when present.  Resolution to a
non-mapping yields no default. -/
def ResolveReferencedDefault (resolver : List (String × Value)) (ref : String) :
    Except Err (Option Value) :=
  match lookupKey resolver ref with
  | none => .error (.refResolution ref)
  | some (.dict t) => .ok (lookupKey t "default")
  | some _ => .ok none

/-- SetDefaults (schema_validation_utils.py).  Iterates the subschemas
under properties, in mapping order.  NOTE the first branch: when the
property already has a value in the instance the source executes
`return`, ending the whole loop, not `continue`. -/
def SetDefaults (resolver : List (String × Value))
    (properties : List (String × Value)) (inst : List (String × Value)) :
    Except Err (List (String × Value)) :=
  match properties with
  | [] => .ok inst
  | (k, sub) :: rest =>
      if hasKey inst k then .ok inst
      else
        match sub with
        | .dict sd =>
            match lookupKey sd "$ref" with
            | some (.str r) => do
                let out ← ResolveReferencedDefault resolver r
                SetDefaults resolver rest (setdefaultKey inst k (out.getD .null))
            | some _ => .error (.typeError "$ref target is not a string")
            | none =>
                match lookupKey sd "default" with
                | some dv => SetDefaults resolver rest (setdefaultKey inst k dv)
                | none => SetDefaults resolver rest inst
        | .str _ => SetDefaults resolver rest inst
        | _ => .error (.typeError "argument is not iterable")

/-! ### The sandbox loader (sandbox_loader.py, process_imports) -/

/-- Lexical path normalization (os.path.normpath on POSIX), on the
already-split components of a relative path: empty and dot components
vanish, a dot-dot pops the previous real component. -/
def normpathGo : List String → List String → List String
  | [], acc => acc.reverse
  | p :: ps, acc =>
      if p = "" ∨ p = "." then normpathGo ps acc
      else if p = ".." then
        match acc with
        | q :: qs => if q = ".." then normpathGo ps (p :: acc) else normpathGo ps qs
        | [] => normpathGo ps [p]
      else normpathGo ps (p :: acc)

/-- os.path.normpath for the relative slash-separated names used as import
keys (absolute paths keep their leading slash; their dot-dot collapse at
the root is not modelled, no import key is absolute). -/
def normpath (s : String) : String :=
  let comps := normpathGo (s.splitOn "/") []
  if s.startsWith "/" then "/" ++ String.intercalate "/" comps
  else if comps.isEmpty then "." else String.intercalate "/" comps

/-- os.path.splitext, keeping only the root: drop the extension that
starts at the last dot of the final component, unless every character of
the final component before that dot is itself a dot. -/
def splitextRoot (s : String) : String :=
  let cs := s.data
  let base := (cs.reverse.takeWhile (· ≠ '/')).reverse
  let ext := base.reverse.takeWhile (· ≠ '.')
  if ext.length = base.length then s
  else
    let stem := base.take (base.length - ext.length - 1)
    if stem.all (· = '.') then s
    else String.mk (cs.take (cs.length - ext.length - 1))

/-- parents bookkeeping of process_imports: append a child under a fully
qualified package name, creating the entry on first sight. -/
def insertParent (ps : List (String × List String)) (k : String) (c : String) :
    List (String × List String) :=
  match ps with
  | [] => [(k, [c])]
  | (k', l) :: rest =>
      if k' = k then (k', l ++ [c]) :: rest else (k', l) :: insertParent rest k c

/-- The inner package-synthesis loop of process_imports, iterating i from
0 through len(parts)-2 (the count argument drives the recursion): for
every proper prefix of the split path, register a dummy (or
user-provided) module file and record the parent-child relationship. -/
def buildPackagesGo (parts : List String) :
    Nat → Nat → List (String × Value) → List (String × List String) →
    List (String × Value) × List (String × List String)
  | 0, _, ret, parents => (ret, parents)
  | count + 1, i, ret, parents =>
      let path := String.intercalate "/" (parts.take (i + 1))
      let ret' :=
        if hasKey ret path then
          insertKey ret (path ++ ".py") ((lookupKey ret path).getD .null)
        else insertKey ret (path ++ ".py") (.str "\n")
      let fqpn := String.intercalate "." (parts.take (i + 1))
      let parents' := insertParent parents fqpn (parts.getD (i + 1) "")
      buildPackagesGo parts count (i + 1) ret' parents'

/-- The package-synthesis loop of process_imports over all proper
prefixes of the split path. -/
def buildPackages (parts : List String) (ret : List (String × Value))
    (parents : List (String × List String)) :
    List (String × Value) × List (String × List String) :=
  buildPackagesGo parts (parts.length - 1) 0 ret parents

/-- process_imports (sandbox_loader.py).  Clones the import map, then for
every key whose entry's path does not end in .jinja synthesizes the
hierarchical package entries.  Subscripting the entry with 'path' is
unconditional: a legacy plain-string entry raises the TypeError that
Python raises for string indices, a mapping entry without a path raises
KeyError, and a non-string path fails the endswith attribute access. -/
def processImportsGo (pending : List (String × Value))
    (ret : List (String × Value)) (parents : List (String × List String)) :
    Except Err (List (String × Value) × List (String × List String)) :=
  match pending with
  | [] => .ok (ret, parents)
  | (k, v) :: rest =>
      match v with
      | .str _ => .error (.typeError "string indices must be integers")
      | .dict dv =>
          match lookupKey dv "path" with
          | none => .error (.keyError "path")
          | some (.str pathStr) =>
              if pathStr.endsWith ".jinja" then processImportsGo rest ret parents
              else
                let normalized := splitextRoot (normpath k)
                if (normalized.splitOn "/").length > 1 then
                  let parts := normalized.splitOn "/"
                  let (ret', parents') := buildPackages parts ret parents
                  processImportsGo rest ret' parents'
                else processImportsGo rest ret parents
          | some _ => .error (.attrError "endswith")
      | _ => .error (.typeError "indices must be integers")

/-- process_imports (sandbox_loader.py), entry point: the cloned map plus
the package synthesis walk over the original keys. -/
def process_imports (imap : List (String × Value)) :
    Except Err (List (String × Value) × List (String × List String)) :=
  processImportsGo imap imap []

/-! ### The expansion driver (expansion.py) -/

mutual

/-- Python equality on document values, used by the name-uniqueness set. -/
def beqValue : Value → Value → Bool
  | .null, .null => true
  | .bool a, .bool b => a == b
  | .int a, .int b => a == b
  | .str a, .str b => a == b
  | .arr a, .arr b => beqValueArr a b
  | .dict a, .dict b => beqValueDict a b
  | _, _ => false

/-- Python equality on lists of document values. -/
def beqValueArr : List Value → List Value → Bool
  | [], [] => true
  | a :: as', b :: bs => beqValue a b && beqValueArr as' bs
  | _, _ => false

/-- Python equality on mappings of document values. -/
def beqValueDict : List (String × Value) → List (String × Value) → Bool
  | [], [] => true
  | (k, a) :: as', (k', b) :: bs => k == k' && beqValue a b && beqValueDict as' bs
  | _, _ => false

end

/-- A single-quote character as a string, for building the source's quoted
error messages. -/
def sq : String := String.mk [Char.ofNat 39]

/-- Python '%s' formatting of a document value, for error messages (only
scalars appear in the messages the claims inspect). -/
def pyFormat : Value → String
  | .null => "None"
  | .bool b => if b then "True" else "False"
  | .int n => toString n
  | .str s => s
  | .arr _ => "[...]"
  | .dict _ => "{...}"

/-- The loop of _ValidateUniqueNames (expansion.py), carrying the set of
names seen so far.  A resource without a name is skipped; a name already
seen raises the non-unique-name ExpansionError. -/
def ValidateUniqueNamesGo (resources : List Value) (templateName : String)
    (names : List Value) : Except Err Unit :=
  match resources with
  | [] => .ok ()
  | r :: rest =>
      match r with
      | .dict d =>
          match lookupKey d "name" with
          | some nv =>
              if names.any (fun x => beqValue x nv) then
                .error (.expansionError ("Resource name " ++ sq ++ pyFormat nv
                  ++ sq ++ " is not unique in " ++ templateName ++ "."))
              else ValidateUniqueNamesGo rest templateName (nv :: names)
          | none => ValidateUniqueNamesGo rest templateName names
      | _ => .error (.typeError "argument is not iterable")

/-- _ValidateUniqueNames (expansion.py). -/
def ValidateUniqueNames (resources : List Value)
    (templateName : String) : Except Err Unit :=
  ValidateUniqueNamesGo resources templateName []

/-- The uniqueness loop, starting from the given set of already-seen
names, reaches a resource whose name was seen before: the situations in
which _ValidateUniqueNames raises the non-unique-name error. -/
inductive DupFound : List Value → List Value → Prop
  | here {names : List Value} {d : List (String × Value)} {nv : Value}
      {rest : List Value} :
      lookupKey d "name" = some nv →
      names.any (fun x => beqValue x nv) = true →
      DupFound names (.dict d :: rest)
  | skipNoName {names : List Value} {d : List (String × Value)}
      {rest : List Value} :
      lookupKey d "name" = none → DupFound names rest →
      DupFound names (.dict d :: rest)
  | skipNew {names : List Value} {d : List (String × Value)} {nv : Value}
      {rest : List Value} :
      lookupKey d "name" = some nv →
      names.any (fun x => beqValue x nv) = false →
      DupFound (nv :: names) rest →
      DupFound names (.dict d :: rest)

/-- The inner loop of _BuildOutputMap: the outputs list of one resource
becomes a map from output name to output value. -/
def BuildOutputValueMap (items : List Value) (acc : List (String × Value)) :
    Except Err (List (String × Value)) :=
  match items with
  | [] => .ok acc
  | .dict item :: rest =>
      match lookupKey item "name", lookupKey item "value" with
      | some (.str nm), some v => BuildOutputValueMap rest (insertKey acc nm v)
      | some _, some _ => .error (.typeError "output name is not a string")
      | none, _ => .error (.keyError "name")
      | _, none => .error (.keyError "value")
  | _ :: _ => .error (.typeError "output item is not a mapping")

/-- The loop of _BuildOutputMap (expansion.py) over the layout resources:
resources without an outputs key are skipped, the others contribute their
output-value map under the resource name. -/
def BuildOutputMapGo (resourceObjs : List Value) (acc : List (String × Value)) :
    Except Err (List (String × Value)) :=
  match resourceObjs with
  | [] => .ok acc
  | .dict d :: rest =>
      match lookupKey d "outputs" with
      | none => BuildOutputMapGo rest acc
      | some (.arr items) => do
          let ovm ← BuildOutputValueMap items []
          match lookupKey d "name" with
          | some (.str nm) => BuildOutputMapGo rest (insertKey acc nm (.dict ovm))
          | some _ => .error (.typeError "resource name is not a string")
          | none => .error (.keyError "name")
      | some _ => .error (.typeError "outputs is not a list")
  | _ :: _ => .error (.typeError "resource is not a mapping")

/-- _BuildOutputMap (expansion.py). -/
def BuildOutputMap (resourceObjs : List Value) :
    Except Err (List (String × Value)) :=
  BuildOutputMapGo resourceObjs []

/-- _ResolveOutputs (expansion.py): with no (or an empty) output map the
outputs pass through; otherwise each output entry has its references
populated. -/
def ResolveOutputs (outputs : List Value) (om : Option (List (String × Value))) :
    Except Err (List Value) :=
  match om with
  | none => .ok outputs
  | some m =>
      if m.isEmpty then .ok outputs
      else outputs.mapM (fun o => PopulateReferences o m)

/-- _ResolveResources (expansion.py): with no (or an empty) output map the
resources pass through; otherwise each resource with a properties block
has that block's references populated. -/
def ResolveResources (resourceObjs : List Value)
    (om : Option (List (String × Value))) : Except Err (List Value) :=
  match om with
  | none => .ok resourceObjs
  | some m =>
      if m.isEmpty then .ok resourceObjs
      else
        resourceObjs.mapM (fun r =>
          match r with
          | .dict d =>
              match lookupKey d "properties" with
              | some props => do
                  let props' ← PopulateReferences props m
                  pure (Value.dict (insertKey d "properties" props'))
              | none => pure (Value.dict d)
          | other => pure other)

/-- The output-map phase of _ProcessTargetConfig (expansion.py): the
output map is built from the layout's resources when that key exists. -/
def BuildOmStep (layout : List (String × Value)) :
    Except Err (Option (List (String × Value))) :=
  match lookupKey layout "resources" with
  | some (.arr lr) => do pure (some (← BuildOutputMap lr))
  | some _ => .error (.typeError "layout resources is not a list")
  | none => pure none

/-- The layout phase of _ProcessTargetConfig (expansion.py): the target's
truthy outputs list is resolved onto the layout. -/
def ResolveLayoutOutputs (target : Value) (layout : List (String × Value))
    (om : Option (List (String × Value))) :
    Except Err (List (String × Value)) :=
  match target with
  | .dict td =>
      match lookupKey td "outputs" with
      | some ov =>
          if truthy ov then
            match ov with
            | .arr ol => do
                pure (insertKey layout "outputs" (.arr (← ResolveOutputs ol om)))
            | _ => .error (.typeError "outputs is not a list")
          else pure layout
      | none => pure layout
  | _ => pure layout

/-- The config phase of _ProcessTargetConfig (expansion.py): a nonempty
config resources list is resolved against the output map. -/
def ResolveConfigStep (config : List Value)
    (om : Option (List (String × Value))) : Except Err (List Value) :=
  if config.isEmpty then pure config else ResolveResources config om

/-- _ProcessTargetConfig (expansion.py).  `config` is the resources list of
the config object under construction, `layout` the layout mapping. -/
def ProcessTargetConfig (target : Value) (outputs : Bool) (config : List Value)
    (layout : List (String × Value)) :
    Except Err (List Value × List (String × Value)) := do
  let om ← BuildOmStep layout
  if outputs then do
    let layout1 ← ResolveLayoutOutputs target layout om
    let config1 ← ResolveConfigStep config om
    pure (config1, layout1)
  else pure (config, layout)

/-- Append a child layout to the layout's resources list (the lazily
initialized `layout['resources'].append(...)` of _ProcessResource). -/
def appendLayoutChild (layout : List (String × Value)) (child : Value) :
    List (String × Value) :=
  match lookupKey layout "resources" with
  | some (.arr l) => insertKey layout "resources" (.arr (l ++ [child]))
  | _ => insertKey layout "resources" (.arr [child])

/-- The folding part of the per-child loop inside the template branch of
_ProcessResource, over the already-processed children: concatenate each
child's config resources, append its layout under the lazily created
resources key, and (re)copy the parent resource's properties onto the
layout.  (The source interleaves this with processing the children; an
error while processing aborts everything either way, so the two phases
are separated here.) -/
def FoldChildren (props : Option Value) :
    List (List Value × Value) → List Value → List (String × Value) →
    List Value × List (String × Value)
  | [], cfg, layout => (cfg, layout)
  | (ccfg, clay) :: rest, cfg, layout =>
      let layout1 := appendLayoutChild layout clay
      let layout2 := match props with
        | some p => insertKey layout1 "properties" p
        | none => layout1
      FoldChildren props rest (cfg ++ ccfg) layout2

mutual

/-- _ProcessResource (expansion.py).  `render` stands for the
ExpandTemplate call (its renderer runs user template code, so it enters
as an oracle from resource to parsed template); `imp` is the import map
(None or a mapping); `fuel` bounds the recursion, which in the source is
bounded only by the interpreter stack.  Returns the flattened config
resources together with the layout node. -/
def ProcessResource (render : Value → Except Err Value)
    (imp : Option (List (String × Value))) (outputs : Bool) :
    Nat → Value → Except Err (List Value × Value)
  | 0, _ => .error .fuel
  | fuel + 1, .dict d => do
      if !(hasKey d "name") then
        .error (.expansionError "Resource does not have a name.")
      else if !(hasKey d "type") then
        .error (.expansionError "Resource does not have type defined.")
      else do
        let layout0 : List (String × Value) :=
          [("name", (lookupKey d "name").getD .null),
           ("type", (lookupKey d "type").getD .null)]
        match imp, lookupKey d "type" with
        | some im, some (.str t) =>
            if !im.isEmpty && hasKey im t then do
              let expanded ← render (.dict d)
              match expanded with
              | .dict ed =>
                  match lookupKey ed "resources" with
                  | none => .error (.keyError "resources")
                  | some rv =>
                      if truthy rv then
                        match rv with
                        | .arr rl => do
                            ValidateUniqueNames rl t
                            let children ← ProcessList render imp outputs fuel rl
                            let (cfg, lay) := FoldChildren (lookupKey d "properties")
                              children [] layout0
                            let (cfg', lay') ← ProcessTargetConfig expanded
                              outputs cfg lay
                            pure (cfg', .dict lay')
                        | _ => .error (.typeError "resources is not a list")
                      else do
                        let (cfg', lay') ← ProcessTargetConfig expanded outputs
                          [] layout0
                        pure (cfg', .dict lay')
              | _ => .error (.typeError "expanded template is not a mapping")
            else pure ([.dict d], .dict layout0)
        | _, _ => pure ([.dict d], .dict layout0)
  | _ + 1, _ => .error (.attrError "resource is not a mapping")

/-- The recursive processing of a template's emitted resource list, each
child through _ProcessResource. -/
def ProcessList (render : Value → Except Err Value)
    (imp : Option (List (String × Value))) (outputs : Bool) :
    Nat → List Value → Except Err (List (List Value × Value))
  | 0, _ => .error .fuel
  | _ + 1, [] => .ok []
  | fuel + 1, child :: rest => do
      let c ← ProcessResource render imp outputs fuel child
      let cs ← ProcessList render imp outputs fuel rest
      pure (c :: cs)

end

/-- The external machinery ExpandTemplate dispatches to: the Jinja
renderer, the Python renderer (both run user template code and include
the yaml.safe_load of the rendered text, so each maps the template
content and the mutated resource to the parsed template document), and
schema_validation.Validate (whose jsonschema internals are exercised
separately through SetDefaults). -/
structure Renderers where
  runJinja : Value → Value → Except Err Value
  runPython : Value → Value → Except Err Value
  validate : Value → String → String → List (String × Value) → Except Err Value

/-- The observable outcome of ExpandTemplate: the parsed template, the
resource map after its in-place mutation, and the caller's env map after
its in-place mutation (None stays None: the source then mutates a fresh
local dict the caller never sees). -/
structure ExpandTemplateResult where
  parsed : Value
  resourceAfter : List (String × Value)
  envAfter : Option (List (String × Value))

/-- The import-entry normalization block of ExpandTemplate (expansion.py):
a mapping-shaped entry contributes its truthy path field (else the source
file name) as the path, and its content field as the content (a missing
content is a KeyError at the use site); a legacy plain entry is itself
the content, with the source file name as the path. -/
def NormalizeImportEntry (sourceFile : String) (entry : Option Value) :
    Value × Option Value :=
  match entry with
  | some (.dict ie) =>
      (match lookupKey ie "path" with
       | some pv => if truthy pv then pv else .str sourceFile
       | none => .str sourceFile,
       lookupKey ie "content")
  | some other => (.str sourceFile, some other)
  | none => (.str sourceFile, none)

/-- Python str.endswith: whether `suf` is a suffix of `s`. -/
def endsWithS (s suf : String) : Bool :=
  startsWith suf.data.reverse s.data.reverse

/-- Whether `pat` occurs as a contiguous subsequence of `hay` (Python
substring membership). -/
def containsSeq (hay pat : List Char) : Bool :=
  match hay with
  | [] => pat.isEmpty
  | _ :: rest => startsWith pat hay || containsSeq rest pat

/-- The renderer dispatch and resources-field check at the tail of
ExpandTemplate (expansion.py): choose the Jinja or Python renderer from
the path suffix, then reject a parse that lacks a resources field.
Python's `'resources' not in parsed_template` is substring membership
when the parse is a string, element membership when it is a list, a
TypeError on other scalars, and None is rejected like a missing key. -/
def RenderAndParse (ox : Renderers) (sourceFile pathStr : String)
    (content : Value) (resource3 : List (String × Value)) : Except Err Value := do
  let parsed ←
    if endsWithS pathStr "jinja" || endsWithS pathStr "yaml" then
      ox.runJinja content (.dict resource3)
    else if endsWithS pathStr "py" then
      ox.runPython content (.dict resource3)
    else
      .error (.expansionError ("Unsupported source file: " ++ sourceFile ++ "."))
  let hasRes := match parsed with
    | .dict pd => some (hasKey pd "resources")
    | .str s => some (containsSeq s.data "resources".data)
    | .arr l => some (l.any (fun x => beqValue x (.str "resources")))
    | .null => some false
    | _ => none
  match hasRes with
  | some true => pure parsed
  | some false =>
      .error (.expansionError ("Template did not return a " ++ sq
        ++ "resources:" ++ sq ++ " field."))
  | none => .error (.typeError "argument is not iterable")

/-- The opening of ExpandTemplate (expansion.py): the source file is the
resource's type and must be a key of the import map. -/
def GetSourceFile (resource imp : List (String × Value)) : Except Err String :=
  match lookupKey resource "type" with
  | some (.str t) =>
      if !(hasKey imp t) then
        .error (.expansionError ("Unable to find source file " ++ t
          ++ " in imports."))
      else pure t
  | some _ => .error (.typeError "type is not a string")
  | none => .error (.keyError "type")

/-- The content half of the import-entry normalization of ExpandTemplate:
a mapping entry without a content field is a KeyError. -/
def GetContent (sourceFile : String) (imp : List (String × Value)) :
    Except Err Value :=
  match (NormalizeImportEntry sourceFile (lookupKey imp sourceFile)).2 with
  | some c => pure c
  | none => .error (.keyError "content")

/-- The path half of the import-entry normalization of ExpandTemplate: a
non-string path fails the endswith attribute access at dispatch. -/
def GetPath (sourceFile : String) (imp : List (String × Value)) :
    Except Err String :=
  match (NormalizeImportEntry sourceFile (lookupKey imp sourceFile)).1 with
  | .str ps => pure ps
  | _ => .error (.attrError "endswith")

/-- The env['name'] read of ExpandTemplate: the resource's name (a missing
name is a KeyError). -/
def GetName (resource : List (String × Value)) : Except Err Value :=
  match lookupKey resource "name" with
  | some nv => pure nv
  | none => .error (.keyError "name")

/-- The schema-validation step of ExpandTemplate: when validation is on
and a sibling schema is among the imports, the properties are replaced by
the validated ones; a ValidationErrors exception is re-raised as an
ExpansionError. -/
def ValidateStep (ox : Renderers) (validateSchema : Bool)
    (resource2 : List (String × Value)) (sourceFile : String)
    (imp : List (String × Value)) : Except Err (List (String × Value)) :=
  if validateSchema && hasKey imp (sourceFile ++ ".schema") then
    match ox.validate ((lookupKey resource2 "properties").getD (.dict []))
        (sourceFile ++ ".schema") sourceFile imp with
    | .ok vp => pure (insertKey resource2 "properties" vp)
    | .error (.validationError m) => .error (.expansionError m)
    | .error e => .error e
  else pure resource2

/-- ExpandTemplate (expansion.py).  Looks the resource type up in
the import map, accepting both entry shapes; mutates the resource with
the import map and the env, and the env with the resource's name and
type; optionally validates properties against a sibling schema; then
renders and checks through RenderAndParse. -/
def ExpandTemplate (ox : Renderers) (validateSchema : Bool)
    (resource : List (String × Value)) (imp : List (String × Value))
    (env : Option (List (String × Value))) : Except Err ExpandTemplateResult := do
  let sourceFile ← GetSourceFile resource imp
  let content ← GetContent sourceFile imp
  let resource1 := insertKey resource "imports" (.dict imp)
  let nameV ← GetName resource
  let envDict1 := insertKey (insertKey (env.getD []) "name" nameV) "type"
    (.str sourceFile)
  let resource2 := insertKey resource1 "env" (.dict envDict1)
  let resource3 ← ValidateStep ox validateSchema resource2 sourceFile imp
  let pathStr ← GetPath sourceFile imp
  let parsed ← RenderAndParse ox sourceFile pathStr content resource3
  pure ⟨parsed, resource3, env.map (fun _ => envDict1)⟩

/-- The per-resource loop of _Expand: process every top-level resource,
extending the config resources and appending the layout node. -/
def ExpandLoop (render : Value → Except Err Value)
    (imp : Option (List (String × Value))) (outputs : Bool) (fuel : Nat) :
    List Value → List Value → List Value → Except Err (List Value × List Value)
  | [], cfg, lay => .ok (cfg, lay)
  | r :: rest, cfg, lay => do
      let (ccfg, clay) ← ProcessResource render imp outputs fuel r
      ExpandLoop render imp outputs fuel rest (cfg ++ ccfg) (lay ++ [clay])

/-- _Expand (expansion.py) from the point where the YAML parser (an
external library) has produced the root document.  Installs the sandbox
loader (whose process_imports must succeed), handles the empty and
scalar special cases, defaults a missing or null resources list, checks
top-level name uniqueness with template name config, processes each
resource, wires outputs, and returns the config/layout document (its
yaml.safe_dump serialization is external). -/
def ExpandParsed (render : Value → Except Err Value)
    (imp : Option (List (String × Value))) (outputs : Bool) (fuel : Nat)
    (doc : Value) : Except Err Value := do
  match imp with
  | some im => let _ ← process_imports im; pure ()
  | none => pure ()
  match doc with
  | .null => pure (.str "")
  | .str s => pure (.str s)
  | .dict d =>
      let resources := match lookupKey d "resources" with
        | none => Value.arr []
        | some .null => Value.arr []
        | some v => v
      match resources with
      | .arr rl => do
          ValidateUniqueNames rl "config"
          let (cfg, lay) ← ExpandLoop render imp outputs fuel rl [] []
          let (cfg', lay') ← ProcessTargetConfig doc outputs cfg
            [("resources", .arr lay)]
          pure (.dict [("config", .dict [("resources", .arr cfg')]),
                       ("layout", .dict lay')])
      | _ => .error (.typeError "resources is not a list")
  | _ => .error (.attrError "has_key")

/-- Refinement side of C3, following the claim sentence: the index of the
first dot in a character list (the claim reads NAME as the characters
from the marker up to the next dot). -/
def specNextDot : List Char → Option Nat
  | [] => none
  | c :: cs => if c = '.' then some 0 else (specNextDot cs).map (· + 1)

/-- Refinement side of C3, following the claim sentence, to be compared
with FindReference: the string contains the marker; NAME is the
characters from the first marker to the next dot; PATH then runs to the
close paren at which the depth-counting scan that starts at depth 1
returns to zero.  The claim words no newline condition into NAME or
PATH, while the code regex has one; the C3 theorems compare the two. -/
def specClaimMatch (content : List Char) : Option (List Char × List Char) :=
  match findMarker content with
  | none => none
  | some i =>
      match specNextDot (content.drop (i + 6)) with
      | none => none
      | some d =>
          match parenScan (content.drop (i + 6 + d + 1)) 1 with
          | none => none
          | some off =>
              some ((content.drop (i + 6)).take d,
                    (content.drop (i + 6 + d + 1)).take off)

/-- C3's notion of a parenthesis-balanced PATH, carrying the running
balance `d`: every close paren is matched by an earlier open paren and
the balance ends at zero, so a depth-counting scan that starts at depth
one returns to zero exactly at the close paren that follows the PATH. -/
def pathBalanced : List Char → Nat → Bool
  | [], d => d == 0
  | c :: cs, d =>
      if c = '(' then pathBalanced cs (d + 1)
      else if c = ')' then
        match d with
        | 0 => false
        | d2 + 1 => pathBalanced cs d2
      else pathBalanced cs d

/-- C3's scan ending with nonzero depth: running the depth counter of
FindReference over the characters from depth `d`, the depth never
returns to zero, so the paren scan finds no closing position. -/
def scanStaysOpen : List Char → Nat → Bool
  | [], _ => true
  | c :: cs, d =>
      let d2 := if c = '(' then d + 1 else if c = ')' then d - 1 else d
      !(d2 == 0) && scanStaysOpen cs d2

/-! ### Helper lemmas -/

theorem searchMatch_one_le_snd {c : List Char} {i j : Nat}
    (h : searchMatch c = some (i, j)) : 1 ≤ j := by
  cases c with
  | nil => simp [searchMatch] at h
  | cons a cs =>
      unfold searchMatch at h
      split at h
      · split at h
        · injection h with h'
          cases h'
          omega
        · rcases Option.map_eq_some'.mp h with ⟨⟨i', j'⟩, hm, he⟩
          cases he
          omega
      · rcases Option.map_eq_some'.mp h with ⟨⟨i', j'⟩, hm, he⟩
        cases he
        omega

theorem findRef_rest_lt {c n p r : List Char}
    (h : FindReference c = .ok (some (n, p, r))) : r.length < c.length := by
  have hlen : 0 < c.length := by
    cases c with
    | nil => simp [FindReference, findMarker] at h
    | cons a cs => simp
  unfold FindReference at h
  split at h
  · simp at h
  split at h
  · simp at h
  rename_i i j hsm
  split at h
  · simp at h
  rename_i off hps
  simp only [Except.ok.injEq, Option.some.injEq, Prod.mk.injEq] at h
  obtain ⟨-, -, hr⟩ := h
  have hj : 1 ≤ j := searchMatch_one_le_snd hsm
  have : r.length = c.length - (j + off) := by
    rw [← hr]
    simp [List.length_drop]
  omega

theorem replaceAllF_adequate : ∀ {f g : Nat} {s pat r : List Char},
    s.length < f → s.length < g →
    replaceAllF f s pat r = replaceAllF g s pat r := by
  intro f
  induction f with
  | zero => intro g s pat r hf _; omega
  | succ f ih =>
      intro g s pat r hf hg
      cases g with
      | zero => omega
      | succ g =>
          cases s with
          | nil => simp [replaceAllF]
          | cons c cs =>
              simp only [replaceAllF]
              simp only [List.length_cons] at hf hg
              have hd : (List.drop (pat.length - 1) cs).length ≤ cs.length := by
                simp [List.length_drop]
              split
              · exact congrArg (r ++ ·)
                  (@ih g (List.drop (pat.length - 1) cs) pat r (by omega) (by omega))
              · exact congrArg (c :: ·) (@ih g cs pat r (by omega) (by omega))

theorem traverseStringF_adequate : ∀ {f g : Nat} {node content : List Char}
    {om : List (String × Value)}, content.length < f → content.length < g →
    TraverseStringF om f node content = TraverseStringF om g node content := by
  intro f
  induction f with
  | zero => intro g node content om hf _; omega
  | succ f ih =>
      intro g node content om hf hg
      cases g with
      | zero => omega
      | succ g =>
          cases hfr : FindReference content with
          | error e => simp [TraverseStringF, hfr]
          | ok o =>
              cases o with
              | none => simp [TraverseStringF, hfr]
              | some t =>
                  obtain ⟨n, p, rest⟩ := t
                  have hrest : rest.length < content.length := findRef_rest_lt hfr
                  cases hlk : lookupKey om (String.mk n) with
                  | none =>
                      simp only [TraverseStringF, hfr, hlk]
                      exact ih (by omega) (by omega)
                  | some refObj =>
                      cases hex : ExtractWithJsonPath refObj n p true with
                      | error e => simp [TraverseStringF, hfr, hlk, hex]
                      | ok vo =>
                          cases vo with
                          | none =>
                              simp only [TraverseStringF, hfr, hlk, hex]
                              exact ih (by omega) (by omega)
                          | some v =>
                              cases v with
                              | null =>
                                  simp only [TraverseStringF, hfr, hlk, hex]
                                  exact ih (by omega) (by omega)
                              | str u =>
                                  simp only [TraverseStringF, hfr, hlk, hex]
                                  exact ih (by omega) (by omega)
                              | bool b => simp [TraverseStringF, hfr, hlk, hex]
                              | int n' => simp [TraverseStringF, hfr, hlk, hex]
                              | arr l => simp [TraverseStringF, hfr, hlk, hex]
                              | dict d => simp [TraverseStringF, hfr, hlk, hex]

theorem collectRefsF_adequate : ∀ {f g : Nat} {content : List Char}
    {acc : List (String × String)}, content.length < f → content.length < g →
    CollectRefsF f content acc = CollectRefsF g content acc := by
  intro f
  induction f with
  | zero => intro g content acc hf _; omega
  | succ f ih =>
      intro g content acc hf hg
      cases g with
      | zero => omega
      | succ g =>
          cases hfr : FindReference content with
          | error e => simp [CollectRefsF, hfr]
          | ok o =>
              cases o with
              | none => simp [CollectRefsF, hfr]
              | some t =>
                  obtain ⟨n, p, rest⟩ := t
                  have hrest : rest.length < content.length := findRef_rest_lt hfr
                  simp only [CollectRefsF, hfr]
                  exact ih (by omega) (by omega)

theorem collectRefsF_sub : ∀ {f : Nat} {content : List Char}
    {acc l : List (String × String)}, CollectRefsF f content acc = .ok l →
    ∀ x ∈ acc, x ∈ l := by
  intro f
  induction f with
  | zero => intro content acc l h; simp [CollectRefsF] at h
  | succ f ih =>
      intro content acc l h x hx
      cases hfr : FindReference content with
      | error e => simp [CollectRefsF, hfr] at h
      | ok o =>
          cases o with
          | none =>
              simp only [CollectRefsF, hfr, Except.ok.injEq] at h
              exact h ▸ hx
          | some t =>
              obtain ⟨n, p, rest⟩ := t
              simp only [CollectRefsF, hfr] at h
              exact ih h x (List.mem_append_left _ hx)

theorem collectRefsF_unresolvable_traverse : ∀ {f : Nat} {node content : List Char}
    {acc l : List (String × String)} {om : List (String × Value)},
    CollectRefsF f content acc = .ok l →
    (∀ pr ∈ l, lookupKey om pr.1 = none) →
    TraverseStringF om f node content = .ok node := by
  intro f
  induction f with
  | zero => intro node content acc l om h _; simp [CollectRefsF] at h
  | succ f ih =>
      intro node content acc l om h hl
      cases hfr : FindReference content with
      | error e => simp [CollectRefsF, hfr] at h
      | ok o =>
          cases o with
          | none => simp [TraverseStringF, hfr]
          | some t =>
              obtain ⟨n, p, rest⟩ := t
              simp only [CollectRefsF, hfr] at h
              have hmem : (String.mk n, String.mk p) ∈ l :=
                collectRefsF_sub h _ (by simp)
              have hnone : lookupKey om (String.mk n) = none := hl _ hmem
              simp only [TraverseStringF, hfr, hnone]
              exact ih h hl

theorem collectRefs_unresolvable_traverseString {content : List Char}
    {l : List (String × String)} {om : List (String × Value)}
    (h : CollectRefs content [] = .ok l)
    (hl : ∀ pr ∈ l, lookupKey om pr.1 = none) (node : List Char) :
    TraverseString node content om = .ok node :=
  collectRefsF_unresolvable_traverse h hl

theorem except_bind_ok {α β : Type} {x : Except Err α} {f : α → Except Err β}
    {b : β} : (x >>= f) = .ok b ↔ ∃ a, x = .ok a ∧ f a = .ok b := by
  cases x <;> simp [Bind.bind, Except.bind]

mutual

theorem collectNode_sub : ∀ (v : Value) (acc l : List (String × String)),
    CollectNode v acc = .ok l → ∀ x ∈ acc, x ∈ l
  | .null, acc, l => by
      intro h x hx
      simp only [CollectNode, Except.ok.injEq] at h
      exact h ▸ hx
  | .bool b, acc, l => by
      intro h x hx
      simp only [CollectNode, Except.ok.injEq] at h
      exact h ▸ hx
  | .int n, acc, l => by
      intro h x hx
      simp only [CollectNode, Except.ok.injEq] at h
      exact h ▸ hx
  | .str s, acc, l => by
      intro h x hx
      simp only [CollectNode, CollectRefs] at h
      exact collectRefsF_sub h x hx
  | .dict d, acc, l => by
      intro h x hx
      simp only [CollectNode] at h
      exact collectNodeDict_sub d acc l h x hx
  | .arr a, acc, l => by
      intro h x hx
      simp only [CollectNode] at h
      exact collectNodeArr_sub a acc l h x hx

theorem collectNodeDict_sub : ∀ (d : List (String × Value))
    (acc l : List (String × String)),
    CollectNodeDict d acc = .ok l → ∀ x ∈ acc, x ∈ l
  | [], acc, l => by
      intro h x hx
      simp only [CollectNodeDict, Except.ok.injEq] at h
      exact h ▸ hx
  | (k, v) :: rest, acc, l => by
      intro h x hx
      simp only [CollectNodeDict] at h
      obtain ⟨acc1, h1, h2⟩ := except_bind_ok.mp h
      exact collectNodeDict_sub rest acc1 l h2 x (collectNode_sub v acc acc1 h1 x hx)

theorem collectNodeArr_sub : ∀ (a : List Value)
    (acc l : List (String × String)),
    CollectNodeArr a acc = .ok l → ∀ x ∈ acc, x ∈ l
  | [], acc, l => by
      intro h x hx
      simp only [CollectNodeArr, Except.ok.injEq] at h
      exact h ▸ hx
  | v :: rest, acc, l => by
      intro h x hx
      simp only [CollectNodeArr] at h
      obtain ⟨acc1, h1, h2⟩ := except_bind_ok.mp h
      exact collectNodeArr_sub rest acc1 l h2 x (collectNode_sub v acc acc1 h1 x hx)

end

mutual

theorem traverseNode_unresolvable_id : ∀ (v : Value)
    (acc l : List (String × String)) (om : List (String × Value)),
    CollectNode v acc = .ok l → (∀ pr ∈ l, lookupKey om pr.1 = none) →
    TraverseNode v om = .ok v
  | .null, acc, l, om => by intro _ _; rfl
  | .bool b, acc, l, om => by intro _ _; rfl
  | .int n, acc, l, om => by intro _ _; rfl
  | .str s, acc, l, om => by
      intro h hl
      simp only [CollectNode] at h
      have := @collectRefsF_unresolvable_traverse _ s.data _ _ _ _ h hl
      simp only [TraverseNode, TraverseString] at *
      rw [this]
      rfl
  | .dict d, acc, l, om => by
      intro h hl
      simp only [CollectNode] at h
      simp only [TraverseNode]
      rw [traverseNodeDict_unresolvable_id d acc l om h hl]
      rfl
  | .arr a, acc, l, om => by
      intro h hl
      simp only [CollectNode] at h
      simp only [TraverseNode]
      rw [traverseNodeArr_unresolvable_id a acc l om h hl]
      rfl

theorem traverseNodeDict_unresolvable_id : ∀ (d : List (String × Value))
    (acc l : List (String × String)) (om : List (String × Value)),
    CollectNodeDict d acc = .ok l → (∀ pr ∈ l, lookupKey om pr.1 = none) →
    TraverseNodeDict d om = .ok d
  | [], acc, l, om => by intro _ _; rfl
  | (k, v) :: rest, acc, l, om => by
      intro h hl
      simp only [CollectNodeDict] at h
      obtain ⟨acc1, h1, h2⟩ := except_bind_ok.mp h
      simp only [TraverseNodeDict]
      rw [traverseNode_unresolvable_id v acc acc1 om h1 (fun pr hpr =>
        hl pr (collectNodeDict_sub rest acc1 l h2 pr hpr))]
      rw [show ∀ z, Except.ok (ε := Err) v >>= z = z v from fun z => rfl]
      rw [traverseNodeDict_unresolvable_id rest acc1 l om h2 hl]
      rfl

theorem traverseNodeArr_unresolvable_id : ∀ (a : List Value)
    (acc l : List (String × String)) (om : List (String × Value)),
    CollectNodeArr a acc = .ok l → (∀ pr ∈ l, lookupKey om pr.1 = none) →
    TraverseNodeArr a om = .ok a
  | [], acc, l, om => by intro _ _; rfl
  | v :: rest, acc, l, om => by
      intro h hl
      simp only [CollectNodeArr] at h
      obtain ⟨acc1, h1, h2⟩ := except_bind_ok.mp h
      simp only [TraverseNodeArr]
      rw [traverseNode_unresolvable_id v acc acc1 om h1 (fun pr hpr =>
        hl pr (collectNodeArr_sub rest acc1 l h2 pr hpr))]
      rw [show ∀ z, Except.ok (ε := Err) v >>= z = z v from fun z => rfl]
      rw [traverseNodeArr_unresolvable_id rest acc1 l om h2 hl]
      rfl

end

/-! ### Claim theorems -/

/-- C1: the claim says every property absent from the input gets its
default (from the $ref target or the subschema) injected, regardless of
which other properties are present; the repository's own nested-defaults
test expects exactly that.  The code instead executes `return` when it
meets an already-present property, abandoning the rest of the loop.  The
three conjuncts: with nothing present both defaults are injected (the
empty-input scenario holds); but in either iteration order of the two
disk subschemas of the nested-defaults test, a disk that already carries
one property gets no default for the other, absent one. -/
theorem setDefaults_early_return_on_present_property :
    SetDefaults [] [("one", .dict [("default", .int 1)]),
                    ("alpha", .dict [("default", .str "alpha")])] [] =
      .ok [("one", .int 1), ("alpha", .str "alpha")] ∧
    SetDefaults [] [("sizeGb", .dict [("default", .int 100)]),
                    ("diskType", .dict [("default", .str "pd-standard")])]
        [("sizeGb", .int 200)] =
      .ok [("sizeGb", .int 200)] ∧
    SetDefaults [] [("diskType", .dict [("default", .str "pd-standard")]),
                    ("sizeGb", .dict [("default", .int 100)])]
        [("diskType", .str "pd-ssd")] =
      .ok [("diskType", .str "pd-ssd")] :=
  ⟨rfl, rfl, rfl⟩

/-- C2 counterexample: the claim says a reference whose NAME is in the
output map but whose PATH does not resolve is left unsubstituted without
failing.  On the repository's own test input (name1 is in the map,
path1b resolves to nothing) the traversal raises the no-value-found
reference error instead — as the test testReplaceNotFoundReferencePath
expects. -/
theorem traverse_fails_on_unresolvable_path_cex :
    PopulateReferences (.str "b $(ref.name1.path1b)")
      [("name1", .dict [("path1a", .str "1a")])] =
      .error (.noValueFound "$(ref.name1.path1b)") :=
  rfl

/-- C2 amended: a reference is left unsubstituted, without failing, only
when its NAME is not a key of the output map (first conjunct: a string
all of whose references have names outside the map traverses to itself);
when NAME is a key but PATH does not resolve to a value, the expansion
fails with the no-value-found reference error (second conjunct). -/
theorem traverse_unresolvable_name_kept_resolvable_path_raises :
    (∀ (s : List Char) (om : List (String × Value)) (l : List (String × String)),
        CollectRefs s [] = .ok l →
        (∀ pr ∈ l, lookupKey om pr.1 = none) →
        TraverseString s s om = .ok s) ∧
    (∀ (s n p rest : List Char) (om : List (String × Value)) (robj : Value),
        FindReference s = .ok (some (n, p, rest)) →
        lookupKey om (String.mk n) = some robj →
        jsonpathEval robj p = none →
        TraverseString s s om =
          .error (.noValueFound (String.mk (BuildReference n p)))) := by
  constructor
  · intro s om l h hl
    exact collectRefs_unresolvable_traverseString h hl s
  · intro s n p rest om robj hfr hlk hjp
    simp only [TraverseString, TraverseStringF, hfr, hlk,
      ExtractWithJsonPath, hjp, if_true]

/-- C2 amended, witness: the first conjunct applied to the
name-not-in-map test string, the second to the bad-path test string. -/
theorem traverse_unresolvable_name_kept_resolvable_path_raises_witness :
    TraverseString "c $(ref.name2.path2a)".data "c $(ref.name2.path2a)".data
      [("name1", .dict [("path1a", .str "1a")])] =
      .ok "c $(ref.name2.path2a)".data ∧
    TraverseString "b $(ref.name1.path1b)".data "b $(ref.name1.path1b)".data
      [("name1", .dict [("path1a", .str "1a")])] =
      .error (.noValueFound "$(ref.name1.path1b)") := by
  constructor
  · exact traverse_unresolvable_name_kept_resolvable_path_raises.1
      "c $(ref.name2.path2a)".data [("name1", .dict [("path1a", .str "1a")])]
      [("name2", "path2a")] rfl (by intro pr hpr; simp at hpr; subst hpr; rfl)
  · exact traverse_unresolvable_name_kept_resolvable_path_raises.2
      "b $(ref.name1.path1b)".data "name1".data "path1b".data ")".data
      [("name1", .dict [("path1a", .str "1a")])] (.dict [("path1a", .str "1a")])
      rfl rfl rfl

/-- C4: the claim (and the spec twice) says a reference resolving to a
non-string value is substituted as its stringification, so size=2 yields
count: 2.  The code calls str.replace with the raw value, and Python 2
str.replace raises a TypeError on a non-string argument: the expansion
fails instead of stringifying (first conjunct); only a string value is
substituted (second conjunct); a null value is skipped (third). -/
theorem traverse_nonstring_output_value_raises :
    PopulateReferences (.str "count: $(ref.first.size)")
      [("first", .dict [("size", .int 2)])] =
      .error (.typeError "expected a character buffer object") ∧
    PopulateReferences (.str "count: $(ref.first.size)")
      [("first", .dict [("size", .str "2")])] = .ok (.str "count: 2") ∧
    PopulateReferences (.str "count: $(ref.first.size)")
      [("first", .dict [("size", .null)])] =
      .ok (.str "count: $(ref.first.size)") :=
  ⟨rfl, rfl, rfl⟩

/-- C7 counterexample: reference substitution is not idempotent.  With
output a.x itself a reference to b.y, the first application rewrites
the node to that inner reference and the second application resolves it
further: the second application changes the document. -/
theorem populateReferences_not_idempotent_cex :
    PopulateReferences (.str "$(ref.a.x)")
      [("a", .dict [("x", .str "$(ref.b.y)")]), ("b", .dict [("y", .str "v")])] =
      .ok (.str "$(ref.b.y)") ∧
    PopulateReferences (.str "$(ref.b.y)")
      [("a", .dict [("x", .str "$(ref.b.y)")]), ("b", .dict [("y", .str "v")])] =
      .ok (.str "v") ∧
    Value.str "v" ≠ Value.str "$(ref.b.y)" := by
  refine ⟨rfl, rfl, ?_⟩
  simp only [ne_eq, Value.str.injEq]
  decide

/-- C7 amended: applying PopulateReferences a second time changes
nothing, provided every reference collected from the first application's
result has a name outside the output map (substituted values that
reintroduce resolvable references break idempotence, as the
counterexample shows). -/
theorem populateReferences_idempotent_when_result_unresolvable :
    ∀ (node : Value) (om : List (String × Value)) (node' : Value)
      (l : List (String × String)),
      PopulateReferences node om = .ok node' →
      CollectNode node' [] = .ok l →
      (∀ pr ∈ l, lookupKey om pr.1 = none) →
      PopulateReferences node' om = .ok node' :=
  fun _ om node' l _ hc hl =>
    traverseNode_unresolvable_id node' [] l om hc hl

/-- C7 amended, witness: a document whose only reference names a resource
outside the output map is a fixed point of substitution, twice over. -/
theorem populateReferences_idempotent_when_result_unresolvable_witness :
    PopulateReferences (.str "a $(ref.q.z) b")
      [("name1", .dict [("path1a", .str "1a")])] =
      .ok (.str "a $(ref.q.z) b") :=
  populateReferences_idempotent_when_result_unresolvable
    (.str "a $(ref.q.z) b") [("name1", .dict [("path1a", .str "1a")])]
    (.str "a $(ref.q.z) b") [("q", "z")] rfl rfl
    (by intro pr hpr; simp at hpr; subst hpr; rfl)

theorem processImportsGo_legacy_errors :
    ∀ (pending : List (String × Value)) (ret : List (String × Value))
      (parents : List (String × List String)) (k s : String),
      (k, Value.str s) ∈ pending →
      ∃ e, processImportsGo pending ret parents = .error e := by
  intro pending
  induction pending with
  | nil => intro ret parents k s h; simp at h
  | cons kv rest ih =>
      intro ret parents k s hmem
      obtain ⟨k0, v0⟩ := kv
      cases v0 with
      | str s0 => exact ⟨.typeError "string indices must be integers", rfl⟩
      | dict dv =>
          have hrest : (k, Value.str s) ∈ rest := by
            rcases List.mem_cons.mp hmem with heq | h
            · exact absurd (congrArg Prod.snd heq).symm (by simp)
            · exact h
          cases hp : lookupKey dv "path" with
          | none =>
              refine ⟨.keyError "path", ?_⟩
              simp only [processImportsGo, hp]
          | some pv =>
              cases pv with
              | str ps =>
                  cases hj : ps.endsWith ".jinja" with
                  | true =>
                      obtain ⟨e, he⟩ := ih ret parents k s hrest
                      refine ⟨e, ?_⟩
                      simp only [processImportsGo, hp, hj, if_true]
                      exact he
                  | false =>
                      by_cases hl : ((splitextRoot (normpath k0)).splitOn "/").length > 1
                      · obtain ⟨e, he⟩ := ih
                          (buildPackages ((splitextRoot (normpath k0)).splitOn "/")
                            ret parents).1
                          (buildPackages ((splitextRoot (normpath k0)).splitOn "/")
                            ret parents).2 k s hrest
                        refine ⟨e, ?_⟩
                        simp only [processImportsGo, hp, hj, Bool.false_eq_true,
                          if_false, hl, if_true]
                        exact he
                      · obtain ⟨e, he⟩ := ih ret parents k s hrest
                        refine ⟨e, ?_⟩
                        simp only [processImportsGo, hp, hj, Bool.false_eq_true,
                          if_false, hl]
                        exact he
              | null =>
                  refine ⟨.attrError "endswith", ?_⟩
                  simp only [processImportsGo, hp]
              | bool b =>
                  refine ⟨.attrError "endswith", ?_⟩
                  simp only [processImportsGo, hp]
              | int n =>
                  refine ⟨.attrError "endswith", ?_⟩
                  simp only [processImportsGo, hp]
              | arr a =>
                  refine ⟨.attrError "endswith", ?_⟩
                  simp only [processImportsGo, hp]
              | dict dd =>
                  refine ⟨.attrError "endswith", ?_⟩
                  simp only [processImportsGo, hp]
      | null => exact ⟨.typeError "indices must be integers", rfl⟩
      | bool b => exact ⟨.typeError "indices must be integers", rfl⟩
      | int n => exact ⟨.typeError "indices must be integers", rfl⟩
      | arr a => exact ⟨.typeError "indices must be integers", rfl⟩

/-- C5 counterexample: the claim says Expand accepts the legacy
importName-to-content shape.  A legacy entry makes process_imports (run
by the sandbox redirect at the start of every expansion) subscript a
string with 'path', the TypeError Python raises for string indices, and
the whole expansion fails before any template is considered. -/
theorem expand_rejects_legacy_import_shape_cex :
    process_imports [("py.py", .str "content")] =
      .error (.typeError "string indices must be integers") ∧
    ExpandParsed (fun _ => .ok .null) (some [("py.py", .str "content")]) false 5
      (.dict [("resources", .arr [])]) =
      .error (.typeError "string indices must be integers") :=
  ⟨rfl, rfl⟩

/-- C5 amended: ExpandTemplate itself normalizes both import shapes to
the same (path, content) pair (second conjunct), but Expand as a whole
accepts only the mapping shape: any import map containing a legacy
plain-string entry makes process_imports, and with it the expansion,
fail (first conjunct). -/
theorem legacy_imports_normalize_alike_but_fail_redirect :
    (∀ (imap : List (String × Value)) (k s : String),
        (k, Value.str s) ∈ imap → ∃ e, process_imports imap = .error e) ∧
    (∀ (sf c : String),
        NormalizeImportEntry sf (some (.str c)) =
          NormalizeImportEntry sf (some (.dict [("content", .str c)])) ∧
        NormalizeImportEntry sf (some (.str c)) = (.str sf, some (.str c))) := by
  constructor
  · intro imap k s h
    exact processImportsGo_legacy_errors imap imap [] k s h
  · intro sf c
    exact ⟨rfl, rfl⟩

/-- C5 amended, witness. -/
theorem legacy_imports_normalize_alike_but_fail_redirect_witness :
    (∃ e, process_imports [("py.py", .str "content")] = .error e) ∧
    NormalizeImportEntry "py.py" (some (.str "content")) =
      NormalizeImportEntry "py.py" (some (.dict [("content", .str "content")])) :=
  ⟨legacy_imports_normalize_alike_but_fail_redirect.1 _ "py.py" "content"
     (by simp),
   (legacy_imports_normalize_alike_but_fail_redirect.2 "py.py" "content").1⟩

mutual

theorem beqValue_refl : ∀ v : Value, beqValue v v = true
  | .null => rfl
  | .bool b => by simp [beqValue]
  | .int n => by simp [beqValue]
  | .str s => by simp [beqValue]
  | .arr a => by
      simp only [beqValue]
      exact beqValueArr_refl a
  | .dict d => by
      simp only [beqValue]
      exact beqValueDict_refl d

theorem beqValueArr_refl : ∀ l : List Value, beqValueArr l l = true
  | [] => rfl
  | v :: rest => by
      simp only [beqValueArr, Bool.and_eq_true]
      exact ⟨beqValue_refl v, beqValueArr_refl rest⟩

theorem beqValueDict_refl : ∀ d : List (String × Value), beqValueDict d d = true
  | [] => rfl
  | (k, v) :: rest => by
      simp only [beqValueDict, Bool.and_eq_true, beq_self_eq_true, true_and]
      exact ⟨beqValue_refl v, beqValueDict_refl rest⟩

end

theorem validateUniqueNamesGo_dup_errors :
    ∀ {names rl : List Value}, DupFound names rl → ∀ tn : String,
      ∃ nv, ValidateUniqueNamesGo rl tn names =
        .error (.expansionError ("Resource name " ++ sq ++ pyFormat nv ++ sq
          ++ " is not unique in " ++ tn ++ ".")) := by
  intro names rl h
  induction h with
  | @here names' d nv rest hn ha =>
      intro tn
      refine ⟨nv, ?_⟩
      simp only [ValidateUniqueNamesGo, hn, ha, if_true]
  | skipNoName hn _ ih =>
      intro tn
      obtain ⟨nv, hnv⟩ := ih tn
      refine ⟨nv, ?_⟩
      simp only [ValidateUniqueNamesGo, hn]
      exact hnv
  | skipNew hn ha _ ih =>
      intro tn
      obtain ⟨nv, hnv⟩ := ih tn
      refine ⟨nv, ?_⟩
      simp only [ValidateUniqueNamesGo, hn, ha, Bool.false_eq_true, if_false]
      exact hnv

theorem lookupKey_insertKey_self (d : List (String × Value)) (k : String)
    (v : Value) : lookupKey (insertKey d k v) k = some v := by
  induction d with
  | nil => simp [insertKey, lookupKey]
  | cons kv rest ih =>
      obtain ⟨k', v'⟩ := kv
      by_cases hk : k' = k
      · simp [insertKey, hk, lookupKey]
      · simp [insertKey, hk, lookupKey, ih]

theorem lookupKey_insertKey_ne (d : List (String × Value)) (k k' : String)
    (v : Value) (h : k ≠ k') :
    lookupKey (insertKey d k v) k' = lookupKey d k' := by
  induction d with
  | nil => simp [insertKey, lookupKey, fun hh => h hh]
  | cons kv rest ih =>
      obtain ⟨k0, v0⟩ := kv
      by_cases hk : k0 = k
      · subst hk
        simp [insertKey, lookupKey, h]
      · simp [insertKey, hk, lookupKey, ih]

theorem except_error_bind {α β : Type} {e : Err} {f : α → Except Err β} :
    (Except.error e >>= f) = .error e := rfl

theorem except_ok_bind' {α β : Type} {a : α} {f : α → Except Err β} :
    (Except.ok a >>= f) = f a := rfl

theorem except_pure_bind {α β : Type} {a : α} {f : α → Except Err β} :
    ((pure a : Except Err α) >>= f) = f a := rfl

theorem str_append_assoc (a b c : String) : a ++ b ++ c = a ++ (b ++ c) := by
  rcases a with ⟨x⟩
  rcases b with ⟨y⟩
  rcases c with ⟨z⟩
  show String.mk (x ++ y ++ z) = String.mk (x ++ (y ++ z))
  rw [List.append_assoc]

/-- C6: a duplicated resource name fails the expansion with the
not-unique-name error.  First conjunct: two top-level resources sharing a
name make the driver fail with exactly `Resource name '<n>' is not
unique in config.` (the message argument of the ExpansionError).  Second
conjunct: whenever the uniqueness loop meets an already-seen name, under
any scope, it raises that error with that scope.  Third conjunct: inside
a template's emitted resource list, a duplicated name raises the error
with the template's type as the scope. -/
theorem duplicate_resource_names_fail :
    (∀ (render : Value → Except Err Value) (outputs : Bool) (fuel : Nat)
       (dd d1 d2 : List (String × Value)) (nm : String),
        lookupKey dd "resources" = some (.arr [.dict d1, .dict d2]) →
        lookupKey d1 "name" = some (.str nm) →
        lookupKey d2 "name" = some (.str nm) →
        ExpandParsed render none outputs fuel (.dict dd) =
          .error (.expansionError ("Resource name " ++ sq ++ nm ++ sq ++
            " is not unique in config."))) ∧
    (∀ (names rl : List Value), DupFound names rl → ∀ tn : String,
        ∃ nv, ValidateUniqueNamesGo rl tn names =
          .error (.expansionError ("Resource name " ++ sq ++ pyFormat nv ++ sq
            ++ " is not unique in " ++ tn ++ "."))) ∧
    (∀ (render : Value → Except Err Value) (im : List (String × Value))
       (outputs : Bool) (fuel : Nat) (d ed c1 c2 : List (String × Value))
       (t nm : String) (nv0 : Value),
        lookupKey d "name" = some nv0 →
        lookupKey d "type" = some (.str t) →
        im.isEmpty = false → hasKey im t = true →
        render (.dict d) = .ok (.dict ed) →
        lookupKey ed "resources" = some (.arr [.dict c1, .dict c2]) →
        lookupKey c1 "name" = some (.str nm) →
        lookupKey c2 "name" = some (.str nm) →
        ProcessResource render (some im) outputs (fuel + 1) (.dict d) =
          .error (.expansionError ("Resource name " ++ sq ++ nm ++ sq ++
            " is not unique in " ++ t ++ "."))) := by
  have hval : ∀ (d1 d2 : List (String × Value)) (nm : String) (tn : String),
      lookupKey d1 "name" = some (.str nm) →
      lookupKey d2 "name" = some (.str nm) →
      ValidateUniqueNamesGo [Value.dict d1, Value.dict d2] tn [] =
        .error (.expansionError ("Resource name " ++ sq ++ nm ++ sq ++
          " is not unique in " ++ tn ++ ".")) := by
    intro d1 d2 nm tn h1 h2
    simp only [ValidateUniqueNamesGo, h1, h2,
      List.any_nil, Bool.false_eq_true, if_false, List.any_cons, beqValue,
      beq_self_eq_true, Bool.true_or, if_true, pyFormat]
  refine ⟨?_, fun names rl h => validateUniqueNamesGo_dup_errors h, ?_⟩
  · intro render outputs fuel dd d1 d2 nm hr h1 h2
    simp only [ExpandParsed, hr, ValidateUniqueNames,
      hval d1 d2 nm "config" h1 h2,
      except_error_bind, except_ok_bind', except_pure_bind,
      str_append_assoc]
    rfl
  · intro render im outputs fuel d ed c1 c2 t nm nv0 hn0 ht him hkey hrender
      hred hc1 hc2
    have hkey' : (lookupKey im t).isSome = true := hkey
    simp only [ProcessResource, hasKey, hn0, ht, Option.isSome_some,
      Bool.not_true, Bool.false_eq_true, if_false, him, Bool.not_false,
      hkey', Bool.and_self, if_true, hrender, except_ok_bind',
      except_pure_bind, hred, truthy, List.isEmpty_cons,
      ValidateUniqueNames, hval c1 c2 nm t hc1 hc2, except_error_bind]

/-- C6, witness: the spec's duplicate-name scenario (two top-level
resources named my_instance), the uniqueness loop on those resources,
and a template emitting two resources named inner under scope t.py. -/
theorem duplicate_resource_names_fail_witness :
    ExpandParsed (fun _ => .ok .null) none false 5
      (.dict [("resources", .arr
        [.dict [("name", .str "my_instance"), ("type", .str "c.v1")],
         .dict [("name", .str "my_instance"), ("type", .str "c.v1")]])]) =
      .error (.expansionError ("Resource name " ++ sq ++ "my_instance" ++ sq ++
        " is not unique in config.")) ∧
    (∃ nv, ValidateUniqueNamesGo
        [.dict [("name", .str "my_instance"), ("type", .str "c.v1")],
         .dict [("name", .str "my_instance"), ("type", .str "c.v1")]]
        "config" [] =
      .error (.expansionError ("Resource name " ++ sq ++ pyFormat nv ++ sq ++
        " is not unique in " ++ "config" ++ "."))) ∧
    ProcessResource
      (fun _ => .ok (.dict [("resources", .arr
        [.dict [("name", .str "inner"), ("type", .str "c.v1")],
         .dict [("name", .str "inner"), ("type", .str "c.v1")]])]))
      (some [("t.py", .dict [("path", .str "t.py"), ("content", .str "x")])])
      false 5 (.dict [("name", .str "r"), ("type", .str "t.py")]) =
      .error (.expansionError ("Resource name " ++ sq ++ "inner" ++ sq ++
        " is not unique in t.py.")) := by
  refine ⟨?_, ?_, ?_⟩
  · exact duplicate_resource_names_fail.1 _ false 5 _ _ _ "my_instance"
      rfl rfl rfl
  · exact duplicate_resource_names_fail.2.1 []
      [.dict [("name", .str "my_instance"), ("type", .str "c.v1")],
       .dict [("name", .str "my_instance"), ("type", .str "c.v1")]]
      (DupFound.skipNew rfl rfl (DupFound.here rfl rfl)) "config"
  · exact duplicate_resource_names_fail.2.2 _ _ false 4 _ _ _ _ "t.py"
      "inner" (.str "r") rfl rfl rfl rfl rfl rfl rfl rfl

theorem getSourceFile_ok {r imp : List (String × Value)} {t : String}
    (h : GetSourceFile r imp = .ok t) :
    lookupKey r "type" = some (.str t) ∧ hasKey imp t = true := by
  unfold GetSourceFile at h
  split at h
  · rename_i t' hty
    split at h
    · simp at h
    · rename_i hk
      simp only [pure, Except.pure, Except.ok.injEq] at h
      subst h
      exact ⟨hty, by simpa using hk⟩
  · simp at h
  · simp at h

theorem getName_ok {r : List (String × Value)} {nv : Value}
    (h : GetName r = .ok nv) : lookupKey r "name" = some nv := by
  unfold GetName at h
  split at h
  · rename_i nv' hn
    simp only [pure, Except.pure, Except.ok.injEq] at h
    subst h
    exact hn
  · simp at h

theorem validateStep_ok {ox : Renderers} {vs : Bool}
    {resource2 : List (String × Value)} {sf : String}
    {imp r3 : List (String × Value)}
    (h : ValidateStep ox vs resource2 sf imp = .ok r3) :
    r3 = resource2 ∨ ∃ vp, r3 = insertKey resource2 "properties" vp := by
  unfold ValidateStep at h
  split at h
  · split at h
    · rename_i vp hvp
      simp only [pure, Except.pure, Except.ok.injEq] at h
      exact Or.inr ⟨vp, h.symm⟩
    · simp at h
    · simp at h
  · simp only [pure, Except.pure, Except.ok.injEq] at h
    exact Or.inl h.symm

/-- C9: ExpandTemplate's in-place mutations, observed through the
state-passing embedding.  Whenever a template resource is successfully
expanded with a caller-supplied env map, the caller's env ends up with
the resource's name under name and the resource's type under type —
overwriting whatever a previously processed sibling left there, since
the env threads through each call — and the resource map has gained
the imports and env keys. -/
theorem expandTemplate_mutates_env_and_resource :
    ∀ (ox : Renderers) (vs : Bool) (r imp e : List (String × Value))
      (res : ExpandTemplateResult),
      ExpandTemplate ox vs r imp (some e) = .ok res →
      ∃ nv t, lookupKey r "name" = some nv ∧
        lookupKey r "type" = some (.str t) ∧
        res.envAfter = some (insertKey (insertKey e "name" nv) "type" (.str t)) ∧
        lookupKey (insertKey (insertKey e "name" nv) "type" (.str t)) "name" =
          some nv ∧
        lookupKey (insertKey (insertKey e "name" nv) "type" (.str t)) "type" =
          some (.str t) ∧
        hasKey res.resourceAfter "imports" = true ∧
        hasKey res.resourceAfter "env" = true := by
  intro ox vs r imp e res h
  have hne1 : "type" ≠ "name" := by decide
  have hne2 : "env" ≠ "imports" := by decide
  have hne3 : "properties" ≠ "imports" := by decide
  have hne4 : "properties" ≠ "env" := by decide
  simp only [ExpandTemplate] at h
  obtain ⟨t, h1, h⟩ := except_bind_ok.mp h
  obtain ⟨c, h2, h⟩ := except_bind_ok.mp h
  obtain ⟨nv, h3, h⟩ := except_bind_ok.mp h
  obtain ⟨r3, h4, h⟩ := except_bind_ok.mp h
  obtain ⟨ps, h5, h⟩ := except_bind_ok.mp h
  obtain ⟨parsed, h6, h⟩ := except_bind_ok.mp h
  simp only [pure, Except.pure, Except.ok.injEq] at h
  subst h
  obtain ⟨hty, -⟩ := getSourceFile_ok h1
  refine ⟨nv, t, getName_ok h3, hty, by simp, ?_, ?_, ?_, ?_⟩
  · rw [lookupKey_insertKey_ne _ _ _ _ hne1, lookupKey_insertKey_self]
  · rw [lookupKey_insertKey_self]
  · rcases validateStep_ok h4 with hr | ⟨vp, hr⟩ <;> subst hr
    · show hasKey (insertKey _ "env" _) "imports" = true
      simp only [hasKey, lookupKey_insertKey_ne _ _ _ _ hne2,
        lookupKey_insertKey_self, Option.isSome_some]
    · show hasKey (insertKey _ "properties" vp) "imports" = true
      simp only [hasKey, lookupKey_insertKey_ne _ _ _ _ hne3,
        lookupKey_insertKey_ne _ _ _ _ hne2, lookupKey_insertKey_self,
        Option.isSome_some]
  · rcases validateStep_ok h4 with hr | ⟨vp, hr⟩ <;> subst hr
    · show hasKey (insertKey _ "env" _) "env" = true
      simp only [hasKey, lookupKey_insertKey_self, Option.isSome_some]
    · show hasKey (insertKey _ "properties" vp) "env" = true
      simp only [hasKey, lookupKey_insertKey_ne _ _ _ _ hne4,
        lookupKey_insertKey_self, Option.isSome_some]

/-- C9, witness: a concrete template expansion whose caller env already
holds a sibling's name; afterwards the env carries this resource's name
and type and the resource has imports and env keys. -/
theorem expandTemplate_mutates_env_and_resource_witness :
    ∃ nv t,
      lookupKey [("name", Value.str "r1"), ("type", Value.str "t.py")] "name" =
        some nv ∧
      lookupKey [("name", Value.str "r1"), ("type", Value.str "t.py")] "type" =
        some (.str t) ∧
      (ExpandTemplateResult.mk
          (.dict [("resources", .arr [])])
          [("name", .str "r1"), ("type", .str "t.py"),
           ("imports", .dict [("t.py", .dict [("path", .str "t.py"),
             ("content", .str "x")])]),
           ("env", .dict [("name", .str "r1"), ("project", .str "p"),
             ("type", .str "t.py")])]
          (some [("name", .str "r1"), ("project", .str "p"),
            ("type", .str "t.py")])).envAfter =
        some (insertKey (insertKey [("name", Value.str "prev"),
          ("project", Value.str "p")] "name" nv) "type" (.str t)) ∧
      lookupKey (insertKey (insertKey [("name", Value.str "prev"),
          ("project", Value.str "p")] "name" nv) "type" (.str t)) "name" =
        some nv ∧
      lookupKey (insertKey (insertKey [("name", Value.str "prev"),
          ("project", Value.str "p")] "name" nv) "type" (.str t)) "type" =
        some (.str t) ∧
      hasKey (ExpandTemplateResult.mk
          (.dict [("resources", .arr [])])
          [("name", .str "r1"), ("type", .str "t.py"),
           ("imports", .dict [("t.py", .dict [("path", .str "t.py"),
             ("content", .str "x")])]),
           ("env", .dict [("name", .str "r1"), ("project", .str "p"),
             ("type", .str "t.py")])]
          (some [("name", .str "r1"), ("project", .str "p"),
            ("type", .str "t.py")])).resourceAfter "imports" = true ∧
      hasKey (ExpandTemplateResult.mk
          (.dict [("resources", .arr [])])
          [("name", .str "r1"), ("type", .str "t.py"),
           ("imports", .dict [("t.py", .dict [("path", .str "t.py"),
             ("content", .str "x")])]),
           ("env", .dict [("name", .str "r1"), ("project", .str "p"),
             ("type", .str "t.py")])]
          (some [("name", .str "r1"), ("project", .str "p"),
            ("type", .str "t.py")])).resourceAfter "env" = true :=
  expandTemplate_mutates_env_and_resource
    ⟨fun _ _ => .ok (.dict [("resources", .arr [])]),
     fun _ _ => .ok (.dict [("resources", .arr [])]),
     fun p _ _ _ => .ok p⟩
    false
    [("name", .str "r1"), ("type", .str "t.py")]
    [("t.py", .dict [("path", .str "t.py"), ("content", .str "x")])]
    [("name", .str "prev"), ("project", .str "p")]
    (ExpandTemplateResult.mk
      (.dict [("resources", .arr [])])
      [("name", .str "r1"), ("type", .str "t.py"),
       ("imports", .dict [("t.py", .dict [("path", .str "t.py"),
         ("content", .str "x")])]),
       ("env", .dict [("name", .str "r1"), ("project", .str "p"),
         ("type", .str "t.py")])]
      (some [("name", .str "r1"), ("project", .str "p"),
        ("type", .str "t.py")]))
    (by rfl)


theorem hasKey_insertKey_ne (d : List (String × Value)) (k k2 : String)
    (v : Value) (h : k ≠ k2) : hasKey (insertKey d k v) k2 = hasKey d k2 := by
  simp only [hasKey, lookupKey_insertKey_ne d k k2 v h]

theorem hasKey_name_type_resources (a b : Value) :
    hasKey [("name", a), ("type", b)] "resources" = false := by
  have h1 : ¬(("name" : String) = "resources") := by decide
  have h2 : ¬(("type" : String) = "resources") := by decide
  simp only [hasKey, lookupKey, if_neg h1, if_neg h2]
  rfl

theorem appendLayoutChild_hasKey (layout : List (String × Value))
    (child : Value) :
    hasKey (appendLayoutChild layout child) "resources" = true := by
  unfold appendLayoutChild
  split <;> simp [hasKey, lookupKey_insertKey_self]

theorem foldChildren_hasKey (props : Option Value) :
    ∀ (l : List (List Value × Value)) (cfg : List Value)
      (layout : List (String × Value)),
      hasKey layout "resources" = true →
      hasKey (FoldChildren props l cfg layout).2 "resources" = true := by
  intro l
  induction l with
  | nil => intro cfg layout h; simpa [FoldChildren] using h
  | cons c rest ih =>
      intro cfg layout _h
      obtain ⟨ccfg, clay⟩ := c
      simp only [FoldChildren]
      apply ih
      cases props with
      | none => exact appendLayoutChild_hasKey layout clay
      | some p =>
          rw [hasKey_insertKey_ne _ _ _ _ (by decide)]
          exact appendLayoutChild_hasKey layout clay

theorem foldChildren_cons_hasKey (props : Option Value)
    (c : List Value × Value) (rest : List (List Value × Value))
    (cfg : List Value) (layout : List (String × Value)) :
    hasKey (FoldChildren props (c :: rest) cfg layout).2 "resources" = true := by
  obtain ⟨ccfg, clay⟩ := c
  simp only [FoldChildren]
  apply foldChildren_hasKey
  cases props with
  | none => exact appendLayoutChild_hasKey layout clay
  | some p =>
      rw [hasKey_insertKey_ne _ _ _ _ (by decide)]
      exact appendLayoutChild_hasKey layout clay

theorem resolveLayoutOutputs_resources {target : Value}
    {lay lay2 : List (String × Value)} {om : Option (List (String × Value))}
    (h : ResolveLayoutOutputs target lay om = .ok lay2) :
    hasKey lay2 "resources" = hasKey lay "resources" := by
  unfold ResolveLayoutOutputs at h
  cases target with
  | dict td =>
      cases hlk : lookupKey td "outputs" with
      | none =>
          simp only [hlk, pure, Except.pure, Except.ok.injEq] at h
          subst h; rfl
      | some ov =>
          simp only [hlk] at h
          cases htr : truthy ov with
          | false =>
              simp only [htr, Bool.false_eq_true, if_false, pure, Except.pure,
                Except.ok.injEq] at h
              subst h; rfl
          | true =>
              simp only [htr, if_true] at h
              cases ov with
              | arr ol =>
                  obtain ⟨rv, hrv, h⟩ := except_bind_ok.mp h
                  simp only [pure, Except.pure, Except.ok.injEq] at h
                  subst h
                  exact hasKey_insertKey_ne lay "outputs" "resources" _
                    (by decide)
              | null => simp [truthy] at htr
              | bool b => simp at h
              | int n => simp at h
              | str s => simp at h
              | dict dd => simp at h
  | null =>
      simp only [pure, Except.pure, Except.ok.injEq] at h
      subst h; rfl
  | bool b =>
      simp only [pure, Except.pure, Except.ok.injEq] at h
      subst h; rfl
  | int n =>
      simp only [pure, Except.pure, Except.ok.injEq] at h
      subst h; rfl
  | str s =>
      simp only [pure, Except.pure, Except.ok.injEq] at h
      subst h; rfl
  | arr l =>
      simp only [pure, Except.pure, Except.ok.injEq] at h
      subst h; rfl

theorem processTargetConfig_resources {target : Value} {outs : Bool}
    {cfg cfg2 : List Value} {lay lay2 : List (String × Value)}
    (h : ProcessTargetConfig target outs cfg lay = .ok (cfg2, lay2)) :
    hasKey lay2 "resources" = hasKey lay "resources" := by
  unfold ProcessTargetConfig at h
  obtain ⟨om, hom, h⟩ := except_bind_ok.mp h
  cases outs with
  | false =>
      rw [if_neg (by decide)] at h
      simp only [pure, Except.pure, Except.ok.injEq, Prod.mk.injEq] at h
      obtain ⟨-, h2⟩ := h
      subst h2
      rfl
  | true =>
      rw [if_pos rfl] at h
      obtain ⟨lay3, hlay, h⟩ := except_bind_ok.mp h
      obtain ⟨cfg3, hcfg, h⟩ := except_bind_ok.mp h
      simp only [pure, Except.pure, Except.ok.injEq, Prod.mk.injEq] at h
      obtain ⟨-, h2⟩ := h
      subst h2
      exact resolveLayoutOutputs_resources hlay

theorem processList_ok_nonempty {render : Value → Except Err Value}
    {imp : Option (List (String × Value))} {outs : Bool} {fuel : Nat}
    {x : Value} {xs : List Value} {children : List (List Value × Value)}
    (h : ProcessList render imp outs fuel (x :: xs) = .ok children) :
    children ≠ [] := by
  cases fuel with
  | zero => simp [ProcessList] at h
  | succ f =>
      simp only [ProcessList] at h
      obtain ⟨c, h1, h⟩ := except_bind_ok.mp h
      obtain ⟨cs, h2, h⟩ := except_bind_ok.mp h
      simp only [pure, Except.pure, Except.ok.injEq] at h
      subst h
      simp

/-- C8: the layout node produced by processing a resource carries a
resources key exactly when the resource is a template — its type names an
entry of a nonempty import map — whose expanded document emitted a
nonempty resources list; a primitive resource, and a template that
emitted an empty list, leave the key absent. -/
theorem processResource_layout_resources_iff :
    ∀ (render : Value → Except Err Value)
      (imp : Option (List (String × Value))) (outs : Bool) (fuel : Nat)
      (d : List (String × Value)) (cfg : List Value) (lay : Value),
      ProcessResource render imp outs fuel (.dict d) = .ok (cfg, lay) →
      ∃ layd, lay = .dict layd ∧
        (hasKey layd "resources" = true ↔
          ∃ im t ed rl, imp = some im ∧
            lookupKey d "type" = some (.str t) ∧
            (!im.isEmpty && hasKey im t) = true ∧
            render (.dict d) = .ok (.dict ed) ∧
            lookupKey ed "resources" = some (.arr rl) ∧ rl ≠ []) := by
  intro render imp outs fuel d cfg lay h
  cases fuel with
  | zero => simp [ProcessResource] at h
  | succ f =>
  simp only [ProcessResource] at h
  split at h
  · simp at h
  · split at h
    · simp at h
    · split at h
      case _ x im t htyp =>
        split at h
        case _ hguard =>
          obtain ⟨expanded, hrend, h⟩ := except_bind_ok.mp h
          cases expanded with
          | dict ed =>
              cases hres : lookupKey ed "resources" with
              | none => simp only [hres] at h; simp at h
              | some rv =>
                  simp only [hres] at h
                  cases htr : truthy rv with
                  | true =>
                      simp only [htr, if_true] at h
                      cases rv with
                      | arr rl =>
                          obtain ⟨u, hvn, h⟩ := except_bind_ok.mp h
                          obtain ⟨children, hch, h⟩ := except_bind_ok.mp h
                          rcases hfc : FoldChildren (lookupKey d "properties")
                            children []
                            [("name", (lookupKey d "name").getD .null),
                             ("type", (lookupKey d "type").getD .null)]
                            with ⟨cfg0, lay0⟩
                          simp only [hfc] at h
                          obtain ⟨pr, hptc, h⟩ := except_bind_ok.mp h
                          obtain ⟨cfg1, lay1⟩ := pr
                          simp only [pure, Except.pure, Except.ok.injEq,
                            Prod.mk.injEq] at h
                          obtain ⟨-, h2⟩ := h
                          subst h2
                          refine ⟨lay1, rfl, ?_⟩
                          have hne : rl ≠ [] := by
                            intro he; subst he; simp [truthy] at htr
                          constructor
                          · intro _
                            exact ⟨im, t, ed, rl, rfl, htyp, hguard, hrend,
                              hres, hne⟩
                          · intro _
                            rw [processTargetConfig_resources hptc]
                            cases children with
                            | nil =>
                                cases rl with
                                | nil => exact absurd rfl hne
                                | cons r0 rs =>
                                    exact absurd rfl
                                      (processList_ok_nonempty hch)
                            | cons c cs =>
                                have hk := foldChildren_cons_hasKey
                                  (lookupKey d "properties") c cs []
                                  [("name", (lookupKey d "name").getD .null),
                                   ("type", (lookupKey d "type").getD .null)]
                                rw [hfc] at hk
                                exact hk
                      | null => simp [truthy] at htr
                      | bool b => simp at h
                      | int n => simp at h
                      | str s => simp at h
                      | dict dd => simp at h
                  | false =>
                      simp only [htr, Bool.false_eq_true, if_false] at h
                      obtain ⟨pr, hptc, h⟩ := except_bind_ok.mp h
                      obtain ⟨cfg1, lay1⟩ := pr
                      simp only [pure, Except.pure, Except.ok.injEq,
                        Prod.mk.injEq] at h
                      obtain ⟨-, h2⟩ := h
                      subst h2
                      refine ⟨lay1, rfl, ?_⟩
                      rw [processTargetConfig_resources hptc,
                        hasKey_name_type_resources]
                      constructor
                      · intro hx; exact absurd hx (by decide)
                      · rintro ⟨im2, t2, ed2, rl2, him2, ht2, hg2, hrend2,
                          hres2, hne2⟩
                        injection him2 with him2e
                        subst him2e
                        rw [hrend] at hrend2
                        injection hrend2 with hrend2e
                        injection hrend2e with hrend2f
                        subst hrend2f
                        rw [hres] at hres2
                        injection hres2 with hres2e
                        subst hres2e
                        simp only [truthy] at htr
                        cases rl2 with
                        | nil => exact absurd rfl hne2
                        | cons a b => simp at htr
          | null => simp at h
          | bool b => simp at h
          | int n => simp at h
          | str s => simp at h
          | arr l => simp at h
        case _ hguard =>
          simp only [pure, Except.pure, Except.ok.injEq, Prod.mk.injEq] at h
          obtain ⟨-, h2⟩ := h
          subst h2
          refine ⟨_, rfl, ?_⟩
          rw [hasKey_name_type_resources]
          constructor
          · intro hx; exact absurd hx (by decide)
          · rintro ⟨im2, t2, ed2, rl2, him2, ht2, hg2, -, -, -⟩
            injection him2 with him2e
            subst him2e
            rw [htyp] at ht2
            injection ht2 with ht2e
            injection ht2e with ht2f
            subst ht2f
            exact absurd hg2 hguard
      case _ hmatch =>
        simp only [pure, Except.pure, Except.ok.injEq, Prod.mk.injEq] at h
        obtain ⟨-, h2⟩ := h
        subst h2
        refine ⟨_, rfl, ?_⟩
        rw [hasKey_name_type_resources]
        constructor
        · intro hx; exact absurd hx (by decide)
        · rintro ⟨im2, t2, ed2, rl2, him2, ht2, -, -, -, -⟩
          exact (hmatch im2 t2 him2 ht2).elim

/-- C8, witness: a template whose expansion emits one resource yields a
layout carrying the resources key, and the template-side condition of the
equivalence holds at these inputs. -/
theorem processResource_layout_resources_iff_witness :
    ∃ layd,
      (Value.dict [("name", Value.str "r"), ("type", Value.str "t.py"),
        ("resources", Value.arr [Value.dict [("name", Value.str "c"),
          ("type", Value.str "vm")]])]) = Value.dict layd ∧
      (hasKey layd "resources" = true ↔
        ∃ im t ed rl,
          (some [("t.py", Value.dict [("path", Value.str "t.py"),
              ("content", Value.str "x")])] :
            Option (List (String × Value))) = some im ∧
          lookupKey [("name", Value.str "r"), ("type", Value.str "t.py")]
            "type" = some (.str t) ∧
          (!im.isEmpty && hasKey im t) = true ∧
          ((fun _ => Except.ok (Value.dict [("resources", Value.arr
              [Value.dict [("name", Value.str "c"),
                ("type", Value.str "vm")]])])) :
            Value → Except Err Value)
            (Value.dict [("name", Value.str "r"),
              ("type", Value.str "t.py")]) = .ok (.dict ed) ∧
          lookupKey ed "resources" = some (.arr rl) ∧ rl ≠ []) :=
  processResource_layout_resources_iff
    (fun _ => Except.ok (Value.dict [("resources", Value.arr
      [Value.dict [("name", Value.str "c"), ("type", Value.str "vm")]])]))
    (some [("t.py", Value.dict [("path", Value.str "t.py"),
      ("content", Value.str "x")])])
    false 3
    [("name", Value.str "r"), ("type", Value.str "t.py")]
    [Value.dict [("name", Value.str "c"), ("type", Value.str "vm")]]
    (Value.dict [("name", Value.str "r"), ("type", Value.str "t.py"),
      ("resources", Value.arr [Value.dict [("name", Value.str "c"),
        ("type", Value.str "vm")]])])
    (by rfl)


theorem startsWith_self_append : ∀ (p s : List Char),
    startsWith p (p ++ s) = true
  | [], _ => rfl
  | c :: cs, s => by
      simp [startsWith, startsWith_self_append cs s]

theorem findMarker_no_dollar : ∀ {l : List Char}, (∀ ch ∈ l, ch ≠ '$') →
    findMarker l = none := by
  intro l
  induction l with
  | nil => intro _; rfl
  | cons c cs ih =>
      intro h
      have hc : c ≠ '$' := h c (List.mem_cons_self c cs)
      have hsw : startsWith refMarker (c :: cs) = false := by
        simp only [refMarker, startsWith]
        rw [decide_eq_false (fun hh => hc hh.symm)]
        simp
      simp [findMarker, hsw,
        ih (fun ch hm => h ch (List.mem_cons_of_mem c hm))]

theorem tailCloseOk_before_newline : ∀ {q : List Char} (s : List Char),
    (∀ ch ∈ q, ch ≠ '\n') → tailCloseOk (q ++ ')' :: s) = true := by
  intro q
  induction q with
  | nil => intro s _; simp [tailCloseOk]
  | cons c cs ih =>
      intro s h
      have hc : c ≠ '\n' := h c (List.mem_cons_self c cs)
      by_cases hcp : c = ')'
      · simp [tailCloseOk, hcp]
      · simp [tailCloseOk, hcp, hc,
          ih s (fun ch hm => h ch (List.mem_cons_of_mem c hm))]

theorem lazyDotIdx_boundary : ∀ {n : List Char} (p s : List Char),
    (∀ ch ∈ n, ch ≠ '.' ∧ ch ≠ '\n') → (∀ ch ∈ p, ch ≠ '\n') →
    lazyDotIdx (n ++ '.' :: (p ++ ')' :: s)) = some n.length := by
  intro n
  induction n with
  | nil =>
      intro p s _ hp
      simp [lazyDotIdx, tailCloseOk_before_newline s hp]
  | cons c cs ih =>
      intro p s hn hp
      obtain ⟨hcd, hcn⟩ := hn c (List.mem_cons_self c cs)
      simp [lazyDotIdx, hcn, hcd,
        ih p s (fun ch hm => hn ch (List.mem_cons_of_mem c hm)) hp]

theorem parenScan_path : ∀ {p : List Char} (s : List Char),
    (∀ ch ∈ p, ch ≠ '(' ∧ ch ≠ ')') →
    parenScan (p ++ ')' :: s) 1 = some p.length := by
  intro p
  induction p with
  | nil => intro s _; simp [parenScan]
  | cons c cs ih =>
      intro s h
      obtain ⟨hco, hcc⟩ := h c (List.mem_cons_self c cs)
      simp [parenScan, hco, hcc,
        ih s (fun ch hm => h ch (List.mem_cons_of_mem c hm))]

theorem pathBalanced_no_paren : ∀ (p : List Char),
    (∀ ch ∈ p, ch ≠ '(' ∧ ch ≠ ')') → pathBalanced p 0 = true := by
  intro p
  induction p with
  | nil => intro _; rfl
  | cons c cs ih =>
      intro h
      obtain ⟨h1, h2⟩ := h c (List.mem_cons_self c cs)
      simp [pathBalanced, h1, h2,
        ih (fun ch hm => h ch (List.mem_cons_of_mem c hm))]

theorem parenScan_balanced : ∀ (p : List Char) (d : Nat) (s : List Char),
    pathBalanced p d = true →
    parenScan (p ++ ')' :: s) (d + 1) = some p.length := by
  intro p
  induction p with
  | nil =>
      intro d s h
      simp only [pathBalanced, beq_iff_eq] at h
      subst h
      simp [parenScan]
  | cons c cs ih =>
      intro d s h
      by_cases hco : c = '('
      · subst hco
        simp only [pathBalanced, if_pos rfl] at h
        have hrec := ih (d + 1) s h
        simp [parenScan, hrec]
      · by_cases hcc : c = ')'
        · subst hcc
          simp only [pathBalanced,
            if_neg (show ¬((')' : Char) = '(') by decide), if_pos rfl] at h
          cases d with
          | zero => simp at h
          | succ d2 =>
              have hrec := ih d2 s h
              simp only [List.cons_append, parenScan,
                if_neg (show ¬((')' : Char) = '(') by decide), if_pos rfl]
              have hd : d2 + 1 + 1 - 1 = d2 + 1 := by omega
              rw [hd]
              simp [hrec]
        · simp only [pathBalanced, if_neg hco, if_neg hcc] at h
          have hrec := ih d s h
          simp [parenScan, hco, hcc, hrec]

theorem lazyDotIdx_first_dot : ∀ (n : List Char) (q : List Char),
    (∀ ch ∈ n, ch ≠ '.' ∧ ch ≠ '\n') → tailCloseOk q = true →
    lazyDotIdx (n ++ '.' :: q) = some n.length := by
  intro n
  induction n with
  | nil => intro q _ htc; simp [lazyDotIdx, htc]
  | cons c cs ih =>
      intro q hn htc
      obtain ⟨hcd, hcn⟩ := hn c (List.mem_cons_self c cs)
      simp [lazyDotIdx, hcn, hcd,
        ih q (fun ch hm => hn ch (List.mem_cons_of_mem c hm)) htc]

theorem findReference_token (n p s : List Char)
    (hn : ∀ ch ∈ n, ch ≠ '.' ∧ ch ≠ '\n')
    (hpn : ∀ ch ∈ p, ch ≠ '\n') (hbal : pathBalanced p 0 = true) :
    FindReference (BuildReference n p ++ s) = .ok (some (n, p, ')' :: s)) := by
  have hshape : BuildReference n p ++ s =
      '$' :: '(' :: 'r' :: 'e' :: 'f' :: '.' :: (n ++ '.' :: (p ++ ')' :: s)) := by
    simp [BuildReference, refMarker]
  rw [hshape]
  have hfm : findMarker ('$' :: '(' :: 'r' :: 'e' :: 'f' :: '.' ::
      (n ++ '.' :: (p ++ ')' :: s))) = some 0 := rfl
  have hld : lazyDotIdx (n ++ '.' :: (p ++ ')' :: s)) = some n.length :=
    lazyDotIdx_first_dot n (p ++ ')' :: s) hn (tailCloseOk_before_newline s hpn)
  have hsm : searchMatch ('$' :: '(' :: 'r' :: 'e' :: 'f' :: '.' ::
      (n ++ '.' :: (p ++ ')' :: s))) = some (0, 6 + n.length) := by
    simp only [searchMatch]
    rw [if_pos (show startsWith refMarker ('$' :: '(' :: 'r' :: 'e' :: 'f' ::
      '.' :: (n ++ '.' :: (p ++ ')' :: s))) = true from rfl)]
    have hdr : List.drop 6 ('$' :: '(' :: 'r' :: 'e' :: 'f' :: '.' ::
        (n ++ '.' :: (p ++ ')' :: s))) = n ++ '.' :: (p ++ ')' :: s) := rfl
    rw [hdr, hld]
  have hdrop2 : List.drop (6 + n.length) ('$' :: '(' :: 'r' :: 'e' :: 'f' ::
      '.' :: (n ++ '.' :: (p ++ ')' :: s))) = '.' :: (p ++ ')' :: s) := by
    have h1 : ('$' :: '(' :: 'r' :: 'e' :: 'f' :: '.' ::
        (n ++ '.' :: (p ++ ')' :: s))) =
        ('$' :: '(' :: 'r' :: 'e' :: 'f' :: '.' :: n) ++
          ('.' :: (p ++ ')' :: s)) := by simp
    have h2 : 6 + n.length =
        ('$' :: '(' :: 'r' :: 'e' :: 'f' :: '.' :: n : List Char).length := by
      simp only [List.length_cons]
      omega
    rw [h1, h2, List.drop_left]
  have hps : parenScan (List.drop (6 + n.length) ('$' :: '(' :: 'r' :: 'e' ::
      'f' :: '.' :: (n ++ '.' :: (p ++ ')' :: s)))) 1 = some (p.length + 1) := by
    rw [hdrop2]
    have hscan : parenScan (p ++ ')' :: s) 1 = some p.length := by
      have h0 := parenScan_balanced p 0 s hbal
      simpa using h0
    simp [parenScan, hscan]
  simp only [FindReference, hfm, hsm, hps]
  have e1 : ((('$' :: '(' :: 'r' :: 'e' :: 'f' :: '.' ::
      (n ++ '.' :: (p ++ ')' :: s))) : List Char).drop (0 + 6)).take
        (6 + n.length - (0 + 6)) = n := by
    have hdr : List.drop (0 + 6) ('$' :: '(' :: 'r' :: 'e' :: 'f' :: '.' ::
        (n ++ '.' :: (p ++ ')' :: s))) = n ++ '.' :: (p ++ ')' :: s) := rfl
    rw [hdr]
    have h3 : 6 + n.length - (0 + 6) = n.length := by omega
    rw [h3, List.take_left]
  have e2 : ((('$' :: '(' :: 'r' :: 'e' :: 'f' :: '.' ::
      (n ++ '.' :: (p ++ ')' :: s))) : List Char).drop (6 + n.length + 1)).take
        (6 + n.length + (p.length + 1) - (6 + n.length + 1)) = p := by
    have h1 : ('$' :: '(' :: 'r' :: 'e' :: 'f' :: '.' ::
        (n ++ '.' :: (p ++ ')' :: s))) =
        ('$' :: '(' :: 'r' :: 'e' :: 'f' :: '.' :: (n ++ ['.'])) ++
          (p ++ ')' :: s) := by simp
    have h2 : 6 + n.length + 1 =
        ('$' :: '(' :: 'r' :: 'e' :: 'f' :: '.' :: (n ++ ['.']) :
          List Char).length := by
      simp only [List.length_cons, List.length_append, List.length_nil]
      omega
    have h3 : 6 + n.length + (p.length + 1) - (6 + n.length + 1) = p.length := by
      omega
    rw [h3, h1, h2, List.drop_left, List.take_left]
  have e3 : (('$' :: '(' :: 'r' :: 'e' :: 'f' :: '.' ::
      (n ++ '.' :: (p ++ ')' :: s))) : List Char).drop
        (6 + n.length + (p.length + 1)) = ')' :: s := by
    have h1 : ('$' :: '(' :: 'r' :: 'e' :: 'f' :: '.' ::
        (n ++ '.' :: (p ++ ')' :: s))) =
        ('$' :: '(' :: 'r' :: 'e' :: 'f' :: '.' :: (n ++ '.' :: p)) ++
          (')' :: s) := by simp
    have h2 : 6 + n.length + (p.length + 1) =
        ('$' :: '(' :: 'r' :: 'e' :: 'f' :: '.' :: (n ++ '.' :: p) :
          List Char).length := by
      simp only [List.length_cons, List.length_append]
      omega
    rw [h1, h2, List.drop_left]
  rw [e1, e2, e3]

theorem findReference_cons_skip {rest : List Char} {c : Char} (hc : c ≠ '$')
    {n p r : List Char}
    (h : FindReference rest = .ok (some (n, p, r))) :
    FindReference (c :: rest) = .ok (some (n, p, r)) := by
  unfold FindReference at h
  cases hfm : findMarker rest with
  | none => simp [hfm] at h
  | some m =>
      simp only [hfm] at h
      cases hsm : searchMatch rest with
      | none => simp [hsm] at h
      | some ij =>
          obtain ⟨i, j⟩ := ij
          simp only [hsm] at h
          cases hps : parenScan (rest.drop j) 1 with
          | none => simp [hps] at h
          | some off =>
              simp only [hps, Except.ok.injEq, Option.some.injEq,
                Prod.mk.injEq] at h
              obtain ⟨h1, h2, h3⟩ := h
              have hsw : startsWith refMarker (c :: rest) = false := by
                simp only [refMarker, startsWith]
                rw [decide_eq_false (fun hh => hc hh.symm)]
                simp
              have hfm2 : findMarker (c :: rest) = some (m + 1) := by
                simp [findMarker, hsw, hfm]
              have hsm2 : searchMatch (c :: rest) = some (i + 1, j + 1) := by
                simp [searchMatch, hsw, hsm]
              have hps2 : parenScan ((c :: rest).drop (j + 1)) 1 = some off := by
                rw [List.drop_succ_cons]
                exact hps
              simp only [FindReference, hfm2, hsm2, hps2, Except.ok.injEq,
                Option.some.injEq, Prod.mk.injEq]
              refine ⟨?_, ?_, ?_⟩
              · have ha1 : i + 1 + 6 = (i + 6) + 1 := by omega
                have ha2 : j + 1 - (i + 1 + 6) = j - (i + 6) := by omega
                rw [ha1, ha2, List.drop_succ_cons]
                exact h1
              · have ha1 : j + 1 + 1 = (j + 1) + 1 := rfl
                have ha2 : j + 1 + off - (j + 1 + 1) = j + off - (j + 1) := by
                  omega
                rw [ha1, ha2, List.drop_succ_cons]
                exact h2
              · have ha1 : j + 1 + off = (j + off) + 1 := by omega
                rw [ha1, List.drop_succ_cons]
                exact h3

theorem findReference_after_prefix : ∀ (a : List Char) {n p s : List Char},
    (∀ ch ∈ a, ch ≠ '$') →
    (∀ ch ∈ n, ch ≠ '.' ∧ ch ≠ '\n') →
    (∀ ch ∈ p, ch ≠ '\n') → pathBalanced p 0 = true →
    FindReference (a ++ (BuildReference n p ++ s)) =
      .ok (some (n, p, ')' :: s))
  | [], n, p, s => fun _ hn hpn hbal => by
      simpa using findReference_token n p s hn hpn hbal
  | c :: cs, n, p, s => fun ha hn hpn hbal => by
      have hrec := findReference_after_prefix cs (s := s)
        (fun ch hm => ha ch (List.mem_cons_of_mem c hm)) hn hpn hbal
      have := findReference_cons_skip (ha c (List.mem_cons_self c cs)) hrec
      simpa using this

theorem replaceAllF_skip : ∀ (a : List Char) {f : Nat} (s pt r : List Char),
    (a ++ s).length < f → (∀ ch ∈ a, ch ≠ '$') →
    replaceAllF f (a ++ s) ('$' :: pt) r =
      a ++ replaceAllF (f - a.length) s ('$' :: pt) r := by
  intro a
  induction a with
  | nil => intro f s pt r _ _; simp
  | cons c cs ih =>
      intro f s pt r hf h
      cases f with
      | zero => exact (Nat.not_lt_zero _ hf).elim
      | succ f =>
          have hc : c ≠ '$' := h c (List.mem_cons_self c cs)
          have hsw : startsWith ('$' :: pt) (c :: (cs ++ s)) = false := by
            simp only [startsWith]
            rw [decide_eq_false (fun hh => hc hh.symm)]
            simp
          have hlen : (cs ++ s).length < f := by
            simp only [List.cons_append, List.length_cons] at hf
            omega
          have hfs : f + 1 - (c :: cs).length = f - cs.length := by
            simp only [List.length_cons]
            omega
          rw [hfs]
          simp only [List.cons_append, replaceAllF, hsw, Bool.and_false,
            Bool.false_eq_true, if_false]
          rw [ih s pt r hlen (fun ch hm => h ch (List.mem_cons_of_mem c hm))]

theorem replaceAllF_head (pt s r : List Char) (f : Nat) :
    replaceAllF (f + 1) (('$' :: pt) ++ s) ('$' :: pt) r =
      r ++ replaceAllF f s ('$' :: pt) r := by
  have hsw : startsWith ('$' :: pt) (('$' :: pt) ++ s) = true :=
    startsWith_self_append ('$' :: pt) s
  simp only [List.cons_append] at hsw
  simp only [List.cons_append, replaceAllF, hsw, List.isEmpty_cons,
    Bool.not_false, Bool.true_and, if_true]
  congr 1
  have hl : ('$' :: pt : List Char).length - 1 = pt.length := by
    simp
  rw [hl, List.drop_left]

theorem replaceAllF_no_dollar : ∀ (s : List Char) {f : Nat} (pt r : List Char),
    (∀ ch ∈ s, ch ≠ '$') → replaceAllF f s ('$' :: pt) r = s := by
  intro s
  induction s with
  | nil => intro f pt r _; cases f <;> rfl
  | cons c cs ih =>
      intro f pt r h
      cases f with
      | zero => rfl
      | succ f =>
          have hc : c ≠ '$' := h c (List.mem_cons_self c cs)
          have hsw : startsWith ('$' :: pt) (c :: cs) = false := by
            simp only [startsWith]
            rw [decide_eq_false (fun hh => hc hh.symm)]
            simp
          simp [replaceAllF, hsw,
            ih pt r (fun ch hm => h ch (List.mem_cons_of_mem c hm))]

theorem replaceAll_no_dollar (s pt r : List Char)
    (h : ∀ ch ∈ s, ch ≠ '$') : replaceAll s ('$' :: pt) r = s :=
  replaceAllF_no_dollar s pt r h

theorem replaceAll_two_tokens (a b c pt r : List Char)
    (ha : ∀ ch ∈ a, ch ≠ '$') (hb : ∀ ch ∈ b, ch ≠ '$')
    (hc : ∀ ch ∈ c, ch ≠ '$') :
    replaceAll (a ++ (('$' :: pt) ++ (b ++ (('$' :: pt) ++ c)))) ('$' :: pt) r =
      a ++ (r ++ (b ++ (r ++ c))) := by
  unfold replaceAll
  rw [replaceAllF_skip a _ pt r (Nat.lt_succ_self _) ha]
  congr 1
  have e1 : (a ++ (('$' :: pt) ++ (b ++ (('$' :: pt) ++ c)))).length + 1 -
      a.length = (('$' :: pt) ++ (b ++ (('$' :: pt) ++ c))).length + 1 := by
    simp only [List.length_append, List.length_cons]
    omega
  rw [e1]
  rw [replaceAllF_head pt (b ++ (('$' :: pt) ++ c)) r
    ((('$' :: pt) ++ (b ++ (('$' :: pt) ++ c))).length)]
  congr 1
  rw [replaceAllF_skip b _ pt r (by
    simp only [List.length_append, List.length_cons]
    omega) hb]
  congr 1
  have e3 : (('$' :: pt) ++ (b ++ (('$' :: pt) ++ c))).length - b.length =
      (pt.length + (pt.length + 1) + c.length) + 1 := by
    simp only [List.length_append, List.length_cons]
    omega
  rw [e3]
  rw [replaceAllF_head pt c r (pt.length + (pt.length + 1) + c.length)]
  congr 1
  exact replaceAllF_no_dollar c pt r hc

theorem splitOnDotGo_no_dot : ∀ (p acc : List Char),
    (∀ ch ∈ p, ch ≠ '.') →
    splitOnDotGo p acc = [String.mk (acc.reverse ++ p)] := by
  intro p
  induction p with
  | nil => intro acc _; simp [splitOnDotGo]
  | cons c cs ih =>
      intro acc h
      have hcd : c ≠ '.' := h c (List.mem_cons_self c cs)
      simp [splitOnDotGo, hcd,
        ih (c :: acc) (fun ch hm => h ch (List.mem_cons_of_mem c hm)),
        List.reverse_cons, List.append_assoc]

theorem extract_single_key (n p : List Char) (u : String)
    (hp : ∀ ch ∈ p, ch ≠ '.') :
    ExtractWithJsonPath (Value.dict [(String.mk p, Value.str u)]) n p true =
      .ok (some (Value.str u)) := by
  have hsp : splitOnDot p = [String.mk p] := by
    have h0 := splitOnDotGo_no_dot p [] hp
    simpa [splitOnDot] using h0
  simp [ExtractWithJsonPath, jsonpathEval, hsp, walkKeys, lookupKey]

/-- C10: a reference that resolves to a string value is substituted at
every occurrence of its literal token in a single step, not only at the
occurrence the matcher found: a string carrying the same resolvable token
twice, around segments that contain no reference marker, has both
occurrences replaced with the value by the traversal. -/
theorem traverseString_replaces_every_occurrence :
    ∀ (a b c n p : List Char) (u : String),
      (∀ ch ∈ a, ch ≠ '$') → (∀ ch ∈ b, ch ≠ '$') → (∀ ch ∈ c, ch ≠ '$') →
      (∀ ch ∈ u.data, ch ≠ '$') →
      (∀ ch ∈ n, ch ≠ '.' ∧ ch ≠ '\n') →
      (∀ ch ∈ p, ch ≠ '.' ∧ ch ≠ '(' ∧ ch ≠ ')' ∧ ch ≠ '\n') →
      TraverseString
        (a ++ BuildReference n p ++ b ++ BuildReference n p ++ c)
        (a ++ BuildReference n p ++ b ++ BuildReference n p ++ c)
        [(String.mk n, .dict [(String.mk p, .str u)])] =
      .ok (a ++ u.data ++ b ++ u.data ++ c) := by
  intro a b c n p u ha hb hc hu hn hp
  simp only [List.append_assoc]
  have hpn : ∀ ch ∈ p, ch ≠ '\n' := fun ch hm => (hp ch hm).2.2.2
  have hpb : pathBalanced p 0 = true :=
    pathBalanced_no_paren p (fun ch hm => ⟨(hp ch hm).2.1, (hp ch hm).2.2.1⟩)
  have hfr1 := findReference_after_prefix a ha hn hpn hpb
    (s := b ++ (BuildReference n p ++ c))
  have hlk : lookupKey [(String.mk n, Value.dict [(String.mk p, Value.str u)])]
      (String.mk n) = some (Value.dict [(String.mk p, Value.str u)]) := by
    simp [lookupKey]
  have hpd : ∀ ch ∈ p, ch ≠ '.' := fun ch hm => (hp ch hm).1
  have hex : ExtractWithJsonPath (Value.dict [(String.mk p, Value.str u)]) n p
      true = .ok (some (Value.str u)) := extract_single_key n p u hpd
  have hbne : BuildReference n p =
      '$' :: ('(' :: 'r' :: 'e' :: 'f' :: '.' :: (n ++ '.' :: (p ++ [')']))) :=
    rfl
  have hrep1 : replaceAll (a ++ (BuildReference n p ++ (b ++
      (BuildReference n p ++ c)))) (BuildReference n p) u.data =
      a ++ (u.data ++ (b ++ (u.data ++ c))) := by
    rw [hbne]
    exact replaceAll_two_tokens a b c _ u.data ha hb hc
  have hall : ∀ ch ∈ a ++ (u.data ++ (b ++ (u.data ++ c))), ch ≠ '$' := by
    intro ch hm
    rcases List.mem_append.mp hm with h1 | h1
    · exact ha ch h1
    rcases List.mem_append.mp h1 with h2 | h2
    · exact hu ch h2
    rcases List.mem_append.mp h2 with h3 | h3
    · exact hb ch h3
    rcases List.mem_append.mp h3 with h4 | h4
    · exact hu ch h4
    · exact hc ch h4
  have hrep2 : replaceAll (a ++ (u.data ++ (b ++ (u.data ++ c))))
      (BuildReference n p) u.data = a ++ (u.data ++ (b ++ (u.data ++ c))) := by
    rw [hbne]
    exact replaceAll_no_dollar _ _ _ hall
  have hfr2 : FindReference (')' :: (b ++ (BuildReference n p ++ c))) =
      .ok (some (n, p, ')' :: c)) := by
    have h0 := findReference_after_prefix (')' :: b)
      (fun ch hm => by
        rcases List.mem_cons.mp hm with h1 | h1
        · rw [h1]; decide
        · exact hb ch h1)
      hn hpn hpb (s := c)
    simpa using h0
  have hfr3 : FindReference (')' :: c) = .ok none := by
    have hnm : findMarker (')' :: c) = none :=
      findMarker_no_dollar (fun ch hm => by
        rcases List.mem_cons.mp hm with h1 | h1
        · rw [h1]; decide
        · exact hc ch h1)
    simp [FindReference, hnm]
  unfold TraverseString
  simp only [TraverseStringF, hfr1, hlk, hex, hrep1]
  have hlen1 : (')' :: (b ++ (BuildReference n p ++ c))).length <
      (a ++ (BuildReference n p ++ (b ++ (BuildReference n p ++ c)))).length := by
    rw [hbne]
    simp only [List.length_append, List.length_cons]
    omega
  rw [traverseStringF_adequate hlen1 (Nat.lt_succ_self _)]
  simp only [TraverseStringF, hfr2, hlk, hex, hrep2, hfr3]

/-- C10, witness: two occurrences of the token of first.size in one
string are both replaced with the value 2. -/
theorem traverseString_replaces_every_occurrence_witness :
    (∀ ch ∈ ("A: ".data : List Char), ch ≠ '$') ∧
    (∀ ch ∈ (" B: ".data : List Char), ch ≠ '$') ∧
    (∀ ch ∈ ("!".data : List Char), ch ≠ '$') ∧
    (∀ ch ∈ ("2" : String).data, ch ≠ '$') ∧
    (∀ ch ∈ ("first".data : List Char), ch ≠ '.' ∧ ch ≠ '\n') ∧
    (∀ ch ∈ ("size".data : List Char),
      ch ≠ '.' ∧ ch ≠ '(' ∧ ch ≠ ')' ∧ ch ≠ '\n') ∧
    TraverseString
      ("A: ".data ++ BuildReference "first".data "size".data ++ " B: ".data ++
        BuildReference "first".data "size".data ++ "!".data)
      ("A: ".data ++ BuildReference "first".data "size".data ++ " B: ".data ++
        BuildReference "first".data "size".data ++ "!".data)
      [(String.mk "first".data,
        .dict [(String.mk "size".data, .str "2")])] =
    .ok ("A: ".data ++ ("2" : String).data ++ " B: ".data ++
      ("2" : String).data ++ "!".data) :=
  ⟨by decide, by decide, by decide, by decide, by decide, by decide,
    traverseString_replaces_every_occurrence "A: ".data " B: ".data "!".data
      "first".data "size".data "2" (by decide) (by decide) (by decide)
      (by decide) (by decide) (by decide)⟩


theorem tailCloseOk_no_close : ∀ {q : List Char},
    (∀ ch ∈ q, ch ≠ ')') → tailCloseOk q = false := by
  intro q
  induction q with
  | nil => intro _; rfl
  | cons c cs ih =>
      intro h
      have hc : c ≠ ')' := h c (List.mem_cons_self c cs)
      by_cases hn : c = '\n'
      · simp [tailCloseOk, hc, hn]
      · simp [tailCloseOk, hc, hn,
          ih (fun ch hm => h ch (List.mem_cons_of_mem c hm))]

theorem lazyDotIdx_no_close : ∀ {l : List Char},
    (∀ ch ∈ l, ch ≠ ')') → lazyDotIdx l = none := by
  intro l
  induction l with
  | nil => intro _; rfl
  | cons c cs ih =>
      intro h
      have hrec := ih (fun ch hm => h ch (List.mem_cons_of_mem c hm))
      by_cases hn : c = '\n'
      · simp [lazyDotIdx, hn]
      · have htc : tailCloseOk cs = false :=
          tailCloseOk_no_close (fun ch hm => h ch (List.mem_cons_of_mem c hm))
        simp [lazyDotIdx, hn, htc, hrec]

theorem searchMatch_no_dollar : ∀ {l : List Char},
    (∀ ch ∈ l, ch ≠ '$') → searchMatch l = none := by
  intro l
  induction l with
  | nil => intro _; rfl
  | cons c cs ih =>
      intro h
      have hc : c ≠ '$' := h c (List.mem_cons_self c cs)
      have hsw : startsWith refMarker (c :: cs) = false := by
        simp only [refMarker, startsWith]
        rw [decide_eq_false (fun hh => hc hh.symm)]
        simp
      simp [searchMatch, hsw,
        ih (fun ch hm => h ch (List.mem_cons_of_mem c hm))]

theorem findMarker_marker (rest : List Char) : ∀ (a : List Char),
    (∀ ch ∈ a, ch ≠ '$') →
    findMarker (a ++ '$' :: '(' :: 'r' :: 'e' :: 'f' :: '.' :: rest) =
      some a.length
  | [] => fun _ => rfl
  | c :: cs => fun h => by
      have hc : c ≠ '$' := h c (List.mem_cons_self c cs)
      have hsw : startsWith refMarker
          (c :: (cs ++ '$' :: '(' :: 'r' :: 'e' :: 'f' :: '.' :: rest)) =
            false := by
        simp only [refMarker, startsWith]
        rw [decide_eq_false (fun hh => hc hh.symm)]
        simp
      simp [findMarker, hsw,
        findMarker_marker rest cs (fun ch hm => h ch (List.mem_cons_of_mem c hm))]

theorem searchMatch_marker_no_completion (rest : List Char)
    (hrest : ∀ ch ∈ rest, ch ≠ '$') (hld : lazyDotIdx rest = none) :
    ∀ (a : List Char), (∀ ch ∈ a, ch ≠ '$') →
    searchMatch (a ++ '$' :: '(' :: 'r' :: 'e' :: 'f' :: '.' :: rest) = none
  | [] => fun _ => by
      have hstep : searchMatch ('$' :: '(' :: 'r' :: 'e' :: 'f' :: '.' ::
          rest) =
          match lazyDotIdx rest with
          | some j => some (0, 6 + j)
          | none => (searchMatch ('(' :: 'r' :: 'e' :: 'f' :: '.' :: rest)).map
              (fun q => (q.1 + 1, q.2 + 1)) := rfl
      have hsm : searchMatch ('(' :: 'r' :: 'e' :: 'f' :: '.' :: rest) =
          none := by
        refine searchMatch_no_dollar ?_
        intro ch hm
        simp only [List.mem_cons] at hm
        rcases hm with rfl | rfl | rfl | rfl | rfl | hm
        · decide
        · decide
        · decide
        · decide
        · decide
        · exact hrest ch hm
      rw [List.nil_append, hstep, hld, hsm]
      rfl
  | c :: cs => fun h => by
      have hc : c ≠ '$' := h c (List.mem_cons_self c cs)
      have hsw : startsWith refMarker
          (c :: (cs ++ '$' :: '(' :: 'r' :: 'e' :: 'f' :: '.' :: rest)) =
            false := by
        simp only [refMarker, startsWith]
        rw [decide_eq_false (fun hh => hc hh.symm)]
        simp
      simp [searchMatch, hsw, searchMatch_marker_no_completion rest hrest hld
        cs (fun ch hm => h ch (List.mem_cons_of_mem c hm))]

theorem findReference_unclosed (a n p : List Char)
    (ha : ∀ ch ∈ a, ch ≠ '$')
    (hn : ∀ ch ∈ n, ch ≠ '$' ∧ ch ≠ ')')
    (hp : ∀ ch ∈ p, ch ≠ '$' ∧ ch ≠ ')') :
    FindReference (a ++ '$' :: '(' :: 'r' :: 'e' :: 'f' :: '.' ::
      (n ++ '.' :: p)) =
    .error (.malformedRef (String.mk (a ++ '$' :: '(' :: 'r' :: 'e' :: 'f' ::
      '.' :: (n ++ '.' :: p)))) := by
  have hfm := findMarker_marker (n ++ '.' :: p) a ha
  have hnc : ∀ ch ∈ n ++ '.' :: p, ch ≠ ')' := by
    intro ch hm
    rcases List.mem_append.mp hm with h1 | h1
    · exact (hn ch h1).2
    · rcases List.mem_cons.mp h1 with rfl | h2
      · decide
      · exact (hp ch h2).2
  have hnd : ∀ ch ∈ n ++ '.' :: p, ch ≠ '$' := by
    intro ch hm
    rcases List.mem_append.mp hm with h1 | h1
    · exact (hn ch h1).1
    · rcases List.mem_cons.mp h1 with rfl | h2
      · decide
      · exact (hp ch h2).1
  have hld := lazyDotIdx_no_close hnc
  have hsm := searchMatch_marker_no_completion (n ++ '.' :: p) hnd hld a ha
  simp only [FindReference, hfm, hsm]

theorem containsSeq_false_no_marker : ∀ {l : List Char},
    containsSeq l refMarker = false → findMarker l = none := by
  intro l
  induction l with
  | nil => intro _; rfl
  | cons c cs ih =>
      intro h
      simp only [containsSeq, Bool.or_eq_false_iff] at h
      obtain ⟨h1, h2⟩ := h
      simp [findMarker, h1, ih h2]

/-- C3 counterexample: the string containing a newline inside what the
claim reads as a balanced PATH.  The claim-shaped reading succeeds — the
marker is present, NAME runs to the next dot, and the paren scan closes
at depth zero — but FindReference raises the malformed-reference error,
because the regex dot of REF_PATTERN does not cross a newline. -/
theorem findReference_newline_cex :
    specClaimMatch ("$(ref.a.b\nc)".data) = some ("a".data, "b\nc".data) ∧
    FindReference ("$(ref.a.b\nc)".data) =
      .error (.malformedRef (String.mk ("$(ref.a.b\nc)".data))) :=
  ⟨rfl, rfl⟩

theorem tailCloseOk_false_no_close : ∀ {q : List Char},
    (∀ ch ∈ q, ch ≠ '\n') → tailCloseOk q = false → ∀ ch ∈ q, ch ≠ ')' := by
  intro q
  induction q with
  | nil => intro _ _ ch hm; simp at hm
  | cons c cs ih =>
      intro hq htc ch hm
      have hcn : c ≠ '\n' := hq c (List.mem_cons_self c cs)
      by_cases hcc : c = ')'
      · rw [hcc] at htc
        simp [tailCloseOk] at htc
      · rcases List.mem_cons.mp hm with rfl | h2
        · exact hcc
        · have htc2 : tailCloseOk cs = false := by
            simp only [tailCloseOk, if_neg hcc, if_neg hcn] at htc
            exact htc
          exact ih (fun x hx => hq x (List.mem_cons_of_mem c hx)) htc2 ch h2

theorem parenScan_none_of_staysOpen : ∀ (l : List Char) (d : Nat),
    scanStaysOpen l d = true → parenScan l d = none := by
  intro l
  induction l with
  | nil => intro d _; rfl
  | cons c cs ih =>
      intro d h
      simp only [scanStaysOpen, Bool.and_eq_true, Bool.not_eq_true',
        beq_eq_false_iff_ne] at h
      obtain ⟨h1, h2⟩ := h
      simp only [parenScan]
      rw [if_neg h1, ih _ h2]
      rfl

theorem drop_append_add (x y : List Char) (m : Nat) :
    (x ++ y).drop (x.length + m) = y.drop m := by
  induction x with
  | nil => simp
  | cons c cs ih =>
      have h1 : (c :: cs).length + m = (cs.length + m) + 1 := by
        simp only [List.length_cons]
        omega
      rw [List.cons_append, h1, List.drop_succ_cons, ih]

theorem searchMatch_append_sh : ∀ (a l : List Char), (∀ ch ∈ a, ch ≠ '$') →
    searchMatch (a ++ l) =
      (searchMatch l).map (fun q => (q.1 + a.length, q.2 + a.length)) := by
  intro a
  induction a with
  | nil =>
      intro l _
      cases hs : searchMatch l <;> simp [hs]
  | cons c cs ih =>
      intro l h
      have hc : c ≠ '$' := h c (List.mem_cons_self c cs)
      have hsw : startsWith refMarker (c :: (cs ++ l)) = false := by
        simp only [refMarker, startsWith]
        rw [decide_eq_false (fun hh => hc hh.symm)]
        simp
      have hrec := ih l (fun ch hm => h ch (List.mem_cons_of_mem c hm))
      rw [List.cons_append]
      simp only [searchMatch, hsw, Bool.false_eq_true, if_false, hrec]
      cases hs : searchMatch l <;> simp [hs, Nat.add_assoc]

theorem searchMatch_token_close (n p : List Char)
    (hn : ∀ ch ∈ n, ch ≠ '.' ∧ ch ≠ '\n') (htc : tailCloseOk p = true) :
    searchMatch ('$' :: '(' :: 'r' :: 'e' :: 'f' :: '.' :: (n ++ '.' :: p)) =
      some (0, 6 + n.length) := by
  have hld : lazyDotIdx (n ++ '.' :: p) = some n.length :=
    lazyDotIdx_first_dot n p hn htc
  have hstep : searchMatch ('$' :: '(' :: 'r' :: 'e' :: 'f' :: '.' ::
      (n ++ '.' :: p)) =
      match lazyDotIdx (n ++ '.' :: p) with
      | some j => some (0, 6 + j)
      | none => (searchMatch ('(' :: 'r' :: 'e' :: 'f' :: '.' ::
          (n ++ '.' :: p))).map (fun q => (q.1 + 1, q.2 + 1)) := rfl
  rw [hstep, hld]

theorem findReference_unbalanced (a n p : List Char)
    (ha : ∀ ch ∈ a, ch ≠ '$')
    (hn : ∀ ch ∈ n, ch ≠ '$' ∧ ch ≠ '.' ∧ ch ≠ ')' ∧ ch ≠ '\n')
    (hp : ∀ ch ∈ p, ch ≠ '$' ∧ ch ≠ '\n')
    (hopen : scanStaysOpen p 1 = true) :
    FindReference (a ++ '$' :: '(' :: 'r' :: 'e' :: 'f' :: '.' ::
      (n ++ '.' :: p)) =
    .error (.malformedRef (String.mk (a ++ '$' :: '(' :: 'r' :: 'e' :: 'f' ::
      '.' :: (n ++ '.' :: p)))) := by
  have hfm := findMarker_marker (n ++ '.' :: p) a ha
  by_cases htc : tailCloseOk p = true
  · have hsmT : searchMatch ('$' :: '(' :: 'r' :: 'e' :: 'f' :: '.' ::
        (n ++ '.' :: p)) = some (0, 6 + n.length) :=
      searchMatch_token_close n p
        (fun ch hm => ⟨(hn ch hm).2.1, (hn ch hm).2.2.2⟩) htc
    have hsm : searchMatch (a ++ '$' :: '(' :: 'r' :: 'e' :: 'f' :: '.' ::
        (n ++ '.' :: p)) = some (0 + a.length, 6 + n.length + a.length) := by
      rw [searchMatch_append_sh a _ ha, hsmT]
      rfl
    have hdrop : (a ++ '$' :: '(' :: 'r' :: 'e' :: 'f' :: '.' ::
        (n ++ '.' :: p)).drop (6 + n.length + a.length) = '.' :: p := by
      have hidx : 6 + n.length + a.length = a.length + (6 + n.length) := by
        omega
      rw [hidx, drop_append_add]
      have h1 : ('$' :: '(' :: 'r' :: 'e' :: 'f' :: '.' ::
          (n ++ '.' :: p)) =
          ('$' :: '(' :: 'r' :: 'e' :: 'f' :: '.' :: n) ++ ('.' :: p) := by
        simp
      have h2 : 6 + n.length =
          ('$' :: '(' :: 'r' :: 'e' :: 'f' :: '.' :: n : List Char).length := by
        simp only [List.length_cons]
        omega
      rw [h1, h2, List.drop_left]
    have hps : parenScan ((a ++ '$' :: '(' :: 'r' :: 'e' :: 'f' :: '.' ::
        (n ++ '.' :: p)).drop (6 + n.length + a.length)) 1 = none := by
      rw [hdrop]
      have hrest : parenScan p 1 = none :=
        parenScan_none_of_staysOpen p 1 hopen
      simp [parenScan, hrest]
    simp only [FindReference, hfm, hsm, hps]
  · have hpn : ∀ ch ∈ p, ch ≠ '\n' := fun ch hm => (hp ch hm).2
    have htc2 : tailCloseOk p = false := by
      cases hb : tailCloseOk p with
      | true => exact absurd hb htc
      | false => rfl
    have hpc : ∀ ch ∈ p, ch ≠ ')' := tailCloseOk_false_no_close hpn htc2
    exact findReference_unclosed a n p ha
      (fun ch hm => ⟨(hn ch hm).1, (hn ch hm).2.2.1⟩)
      (fun ch hm => ⟨(hp ch hm).1, hpc ch hm⟩)

/-- C3 amended: reference extraction behaves as claimed once the newline
restriction of the regex dot is added.  No marker substring: no
reference is reported.  A marker followed by a dot- and newline-free
NAME and a newline-free parenthesis-balanced PATH closed at depth zero:
that NAME and PATH are returned, dots and matched parens inside the
PATH included.  A marker whose depth-counting scan never returns to
zero — unmatched open parens, or no close paren at all: the
malformed-reference error, echoing the offending content. -/
theorem findReference_characterization :
    (∀ s : List Char, containsSeq s refMarker = false →
        FindReference s = .ok none) ∧
    (∀ a n p s : List Char,
        (∀ ch ∈ a, ch ≠ '$') →
        (∀ ch ∈ n, ch ≠ '.' ∧ ch ≠ '\n') →
        (∀ ch ∈ p, ch ≠ '\n') → pathBalanced p 0 = true →
        FindReference (a ++ (BuildReference n p ++ s)) =
          .ok (some (n, p, ')' :: s))) ∧
    (∀ a n p : List Char,
        (∀ ch ∈ a, ch ≠ '$') →
        (∀ ch ∈ n, ch ≠ '$' ∧ ch ≠ '.' ∧ ch ≠ ')' ∧ ch ≠ '\n') →
        (∀ ch ∈ p, ch ≠ '$' ∧ ch ≠ '\n') →
        scanStaysOpen p 1 = true →
        FindReference (a ++ '$' :: '(' :: 'r' :: 'e' :: 'f' :: '.' ::
          (n ++ '.' :: p)) =
        .error (.malformedRef (String.mk (a ++ '$' :: '(' :: 'r' :: 'e' ::
          'f' :: '.' :: (n ++ '.' :: p))))) := by
  refine ⟨?_, ?_, ?_⟩
  · intro s h
    have hfm := containsSeq_false_no_marker h
    simp [FindReference, hfm]
  · intro a n p s ha hn hpn hbal
    exact findReference_after_prefix a (s := s) ha hn hpn hbal
  · intro a n p ha hn hp hopen
    exact findReference_unbalanced a n p ha hn hp hopen

/-- C3 amended, witness: the branches at a reference-free string, at the
repo test suite complex dotted path with matched parens, at an
unmatched open paren, and at a reference with no closing paren. -/
theorem findReference_characterization_witness :
    FindReference ("no references here".data) = .ok none ∧
    FindReference ("x".data ++ (BuildReference "name".data
      "path[0].to().very.cool[\"thing\"]".data ++ " tail".data)) =
      .ok (some ("name".data, "path[0].to().very.cool[\"thing\"]".data,
        ')' :: " tail".data)) ∧
    FindReference ("almost ".data ++ '$' :: '(' :: 'r' :: 'e' :: 'f' :: '.' ::
      ("name".data ++ '.' :: "path()".data)) =
    .error (.malformedRef (String.mk ("almost ".data ++ '$' :: '(' :: 'r' ::
      'e' :: 'f' :: '.' :: ("name".data ++ '.' :: "path()".data)))) ∧
    FindReference ("almost ".data ++ '$' :: '(' :: 'r' :: 'e' :: 'f' :: '.' ::
      ("name".data ++ '.' :: "path".data)) =
    .error (.malformedRef (String.mk ("almost ".data ++ '$' :: '(' :: 'r' ::
      'e' :: 'f' :: '.' :: ("name".data ++ '.' :: "path".data)))) :=
  ⟨findReference_characterization.1 "no references here".data (by decide),
   findReference_characterization.2.1 "x".data "name".data
     "path[0].to().very.cool[\"thing\"]".data " tail".data
     (by decide) (by decide) (by decide) (by decide),
   findReference_characterization.2.2 "almost ".data "name".data
     "path()".data (by decide) (by decide) (by decide) (by decide),
   findReference_characterization.2.2 "almost ".data "name".data
     "path".data (by decide) (by decide) (by decide) (by decide)⟩

end Expansion
